import Mathlib

/-!
Verification development for the `organizer` file-tree planning, action-execution
and deduplication engine.  The Rust sources (`main.rs`, `actions.rs`, `categorize.rs`,
`dedupe.rs`, `utils.rs`, `config.rs`) are shallowly embedded below: paths are lists of
component strings (each component a list of characters), the filesystem is either an
abstract operation interface (`FSOps`) or a concrete in-memory tree (`Node`), and all
fallible operations return `Option`/`Except` values.
-/

namespace Organizer

/-- A string, modelled as its list of characters (Rust `String`). -/
abbrev Str := List Char

/-- A filesystem path, modelled as its list of components (Rust `PathBuf`). -/
abbrev Path := List Str

/-- Rust `Path::starts_with`: `startsWithB base p` is true when `base` is a
component-wise prefix of `p` (equality included). -/
def startsWithB : Path → Path → Bool
  | [], _ => true
  | _ :: _, [] => false
  | b :: bs, a :: as_ => decide (b = a) && startsWithB bs as_

/-- `skips.iter().any(|p| path.starts_with(p))` as used in `main.rs` and `actions.rs`. -/
def underAny (skips : List Path) (p : Path) : Bool :=
  skips.any (fun r => startsWithB r p)

theorem startsWithB_iff (b p : Path) : startsWithB b p = true ↔ b <+: p := by
  induction b generalizing p with
  | nil => simp [startsWithB]
  | cons x xs ih =>
    cases p with
    | nil => simp [startsWithB]
    | cons y ys =>
      simp [startsWithB, ih, List.cons_prefix_cons]

/-! ### Decimal and hexadecimal rendering (`format!("{}", n)` and `hex::encode`) -/

/-- The character for a decimal digit (`(b'0' + n) as char` in `dedupe.rs`). -/
def digitChar (d : Nat) : Char := "0123456789".data.getD d '?'

/-- Accumulator loop producing the decimal digits of `m` (the first argument is
a fuel bound; any fuel `≥ m` yields all digits). -/
def natCharsGo : Nat → Nat → Str → Str
  | 0, _, acc => acc
  | f + 1, m, acc =>
    if m = 0 then acc else natCharsGo f (m / 10) (digitChar (m % 10) :: acc)

/-- Decimal rendering of a natural number, as `format!("{}", n)` produces it. -/
def natChars (n : Nat) : Str :=
  if n = 0 then ['0'] else natCharsGo n n []

/-- `hex_char` from `dedupe.rs`: `0..=9 → '0'+n`, `10..=15 → 'a'+(n-10)`, else `'?'`. -/
def hexChar (n : Nat) : Char := "0123456789abcdef".data.getD n '?'

/-- `hex::encode` from `dedupe.rs`: two hex characters per byte,
high nibble (`b >> 4`) first, then low nibble (`b & 0x0f`). -/
def hexEncode : List Nat → Str
  | [] => []
  | b :: rest => hexChar (b >>> 4) :: hexChar (b &&& 15) :: hexEncode rest

theorem digitChar_ne_pipe (d : Nat) : digitChar d ≠ '|' := by
  unfold digitChar
  by_cases h : d < 10
  · interval_cases d <;> decide
  · rw [List.getD_eq_default _ _
      (by rw [show ("0123456789".data).length = 10 from rfl]; omega)]
    decide

theorem hexChar_ne_pipe (d : Nat) : hexChar d ≠ '|' := by
  unfold hexChar
  by_cases h : d < 16
  · interval_cases d <;> decide
  · rw [List.getD_eq_default _ _
      (by rw [show ("0123456789abcdef".data).length = 16 from rfl]; omega)]
    decide

theorem hexChar_ne_N (d : Nat) : hexChar d ≠ 'N' := by
  unfold hexChar
  by_cases h : d < 16
  · interval_cases d <;> decide
  · rw [List.getD_eq_default _ _
      (by rw [show ("0123456789abcdef".data).length = 16 from rfl]; omega)]
    decide

theorem natCharsGo_pipe : ∀ (f m : Nat) (acc : Str), '|' ∉ acc →
    '|' ∉ natCharsGo f m acc
  | 0, _, _, hacc => hacc
  | f + 1, m, acc, hacc => by
    simp only [natCharsGo]
    split
    · exact hacc
    · refine natCharsGo_pipe f (m / 10) _ ?_
      intro hmem
      rcases List.mem_cons.mp hmem with he | hm
      · exact digitChar_ne_pipe _ he.symm
      · exact hacc hm

theorem natChars_pipe (n : Nat) : '|' ∉ natChars n := by
  unfold natChars
  split
  · decide
  · exact natCharsGo_pipe n n [] (by simp)

theorem hexEncode_pipe (bs : List Nat) : '|' ∉ hexEncode bs := by
  induction bs with
  | nil => simp [hexEncode]
  | cons b rest ih =>
    simp only [hexEncode, List.mem_cons, not_or]
    exact ⟨fun h => hexChar_ne_pipe _ h.symm, fun h => hexChar_ne_pipe _ h.symm, ih⟩

/-- Value of a digit character. -/
def digitVal (c : Char) : Nat := c.toNat - 48

theorem digitVal_digitChar : ∀ d < 10, digitVal (digitChar d) = d := by decide

/-- Decimal re-interpretation of a digit string. -/
def decValue (s : Str) : Nat := s.foldl (fun a c => a * 10 + digitVal c) 0

theorem decValue_append_singleton (l : Str) (c : Char) :
    decValue (l ++ [c]) = decValue l * 10 + digitVal c := by
  simp [decValue, List.foldl_append]

theorem natCharsGo_append : ∀ (f m : Nat) (acc : Str),
    natCharsGo f m acc = natCharsGo f m [] ++ acc
  | 0, _, _ => by simp [natCharsGo]
  | f + 1, m, acc => by
    simp only [natCharsGo]
    split
    · simp
    · rw [natCharsGo_append f (m / 10) (digitChar (m % 10) :: acc),
        natCharsGo_append f (m / 10) (digitChar (m % 10) :: [])]
      simp

theorem decValue_natCharsGo : ∀ (f m : Nat), m ≤ f →
    decValue (natCharsGo f m []) = m
  | 0, m, h => by
    have hm : m = 0 := by omega
    subst hm
    rfl
  | f + 1, m, h => by
    simp only [natCharsGo]
    split
    · next h0 => subst h0; rfl
    · next h0 =>
      rw [natCharsGo_append, decValue_append_singleton,
        decValue_natCharsGo f (m / 10) (by omega),
        digitVal_digitChar _ (Nat.mod_lt _ (by omega))]
      omega

theorem decValue_natChars (n : Nat) : decValue (natChars n) = n := by
  unfold natChars
  split
  · next h => subst h; rfl
  · exact decValue_natCharsGo n n le_rfl

theorem natChars_injective : Function.Injective natChars := by
  intro a b h
  have := decValue_natChars a
  rw [h, decValue_natChars] at this
  omega

set_option maxRecDepth 4000 in
theorem nibble_facts : ∀ z < 256, z >>> 4 < 16 ∧ z &&& 15 < 16 ∧
    16 * (z >>> 4) + (z &&& 15) = z := by decide

theorem hexEncode_injective (a b : List Nat)
    (ha : ∀ x ∈ a, x < 256) (hb : ∀ x ∈ b, x < 256)
    (h : hexEncode a = hexEncode b) : a = b := by
  induction a generalizing b with
  | nil => cases b with
    | nil => rfl
    | cons y ys => simp [hexEncode] at h
  | cons x xs ih =>
    cases b with
    | nil => simp [hexEncode] at h
    | cons y ys =>
      simp only [hexEncode, List.cons.injEq] at h
      obtain ⟨h1, h2, h3⟩ := h
      have hx := ha x (List.mem_cons_self x xs)
      have hy := hb y (List.mem_cons_self y ys)
      have hinj : ∀ u < 16, ∀ v < 16, hexChar u = hexChar v → u = v := by decide
      obtain ⟨hx1, hx2, hx3⟩ := nibble_facts x hx
      obtain ⟨hy1, hy2, hy3⟩ := nibble_facts y hy
      have e1 := hinj _ hx1 _ hy1 h1
      have e2 := hinj _ hx2 _ hy2 h2
      have hxy : x = y := by omega
      exact hxy ▸ congrArg (x :: ·) (ih ys (fun z hz => ha z (List.mem_cons_of_mem _ hz))
        (fun z hz => hb z (List.mem_cons_of_mem _ hz)) h3)

/-! ### Categories and the classifier (`categorize.rs`) -/

/-- The closed category enumeration from `categorize.rs`. -/
inductive Category where
  | media | music | documents | archives | projects | gitRepos | backups | others
deriving DecidableEq, Repr

/-- `Category::as_dir`: the fixed destination subdirectory name of a category. -/
def Category.asDir : Category → Str
  | .media => "Media".data
  | .music => "Music".data
  | .documents => "Documents".data
  | .archives => "Archives".data
  | .projects => "Projects".data
  | .gitRepos => "GitRepos".data
  | .backups => "Backups".data
  | .others => "Others".data

/-- Rust `str::starts_with`: `startsWithStrB pat s` is true when `pat` is a
character prefix of `s`. -/
def startsWithStrB : Str → Str → Bool
  | [], _ => true
  | _ :: _, [] => false
  | b :: bs, a :: as_ => decide (b = a) && startsWithStrB bs as_

/-- `is_document_mime` from `categorize.rs`. -/
def isDocumentMime (m : Str) : Bool :=
  decide (m = "application/pdf".data) ||
  decide (m = "application/msword".data) ||
  decide (m = "application/vnd.openxmlformats-officedocument.wordprocessingml.document".data) ||
  decide (m = "application/vnd.ms-excel".data) ||
  decide (m = "application/vnd.openxmlformats-officedocument.spreadsheetml.sheet".data) ||
  decide (m = "application/vnd.ms-powerpoint".data) ||
  decide (m = "application/vnd.openxmlformats-officedocument.presentationml.presentation".data) ||
  startsWithStrB "text/".data m

/-- `is_archive_mime` from `categorize.rs`. -/
def isArchiveMime (m : Str) : Bool :=
  decide (m = "application/zip".data) ||
  decide (m = "application/x-tar".data) ||
  decide (m = "application/gzip".data) ||
  decide (m = "application/x-7z-compressed".data) ||
  decide (m = "application/x-rar-compressed".data) ||
  decide (m = "application/x-xz".data)

/-- The per-category extension lists held by `Settings::category_exts`
(`Media`, `Music`, `Documents`, `Archives`). -/
structure CatSettings where
  media : List Str
  music : List Str
  documents : List Str
  archives : List Str

/-- ASCII lowercasing of one character (`str::to_lowercase` restricted to ASCII). -/
def lowerChar (c : Char) : Char :=
  if 'A' ≤ c ∧ c ≤ 'Z' then Char.ofNat (c.toNat + 32) else c

/-- Lowercase a string. -/
def lowerStr (s : Str) : Str := s.map lowerChar

/-- The extension-table lookup of `Categorizer::categorize_file`: fixed precedence
Media, Music, Documents, Archives; `none` when no list contains the extension. -/
def extLookup (st : CatSettings) (ext : Option Str) : Option Category :=
  match ext with
  | none => none
  | some e =>
    let el := lowerStr e
    if st.media.any (fun x => decide (x = el)) then some .media
    else if st.music.any (fun x => decide (x = el)) then some .music
    else if st.documents.any (fun x => decide (x = el)) then some .documents
    else if st.archives.any (fun x => decide (x = el)) then some .archives
    else none

/-- The MIME-based mapping of the `file -b --mime-type` branch of
`categorize_file` (image/video → Media, audio → Music, document → Documents,
archive → Archives, otherwise fall through). -/
def fileCmdMap (m : Str) : Option Category :=
  if startsWithStrB "image/".data m || startsWithStrB "video/".data m then some .media
  else if startsWithStrB "audio/".data m then some .music
  else if isDocumentMime m then some .documents
  else if isArchiveMime m then some .archives
  else none

/-- The MIME-based mapping of the `infer` magic-byte fallback of
`categorize_file`: only image/video → Media and audio → Music are mapped. -/
def inferMap (m : Str) : Option Category :=
  if startsWithStrB "image/".data m || startsWithStrB "video/".data m then some .media
  else if startsWithStrB "audio/".data m then some .music
  else none

/-- `Categorizer::categorize_file`.  `ext` is `path.extension()` (lowercased inside),
`probe` the result of the external `file -b --mime-type` command (`None` when the
command fails or yields empty output), `sniffed` the MIME detected by `infer` on the
first 8 KiB of the file (`None` when the file cannot be opened or is not recognized). -/
def categorizeFile (st : CatSettings) (useFileCmd : Bool)
    (probe : Option Str) (sniffed : Option Str) (ext : Option Str) : Category :=
  match extLookup st ext with
  | some c => c
  | none =>
    let viaCmd : Option Category :=
      if useFileCmd then
        match probe with
        | some m => fileCmdMap m
        | none => none
      else none
    match viaCmd with
    | some c => c
    | none =>
      match sniffed with
      | some m =>
        match inferMap m with
        | some c => c
        | none => .others
      | none => .others

/-! ### Actions, log lines and the filesystem interface (`actions.rs`) -/

/-- The `Action` enum from `actions.rs`. -/
inductive Action where
  | moveFile (src : Path) (destDir : Path)
  | moveDir (srcDir : Path) (destDir : Path)
  | delete (p : Path) (reason : Str)
deriving DecidableEq, Repr

/-- The source path of an action (the filesystem entry the planner planned it for). -/
def Action.src : Action → Path
  | .moveFile s _ => s
  | .moveDir s _ => s
  | .delete p _ => p

/-- One emitted log line, structured by its format string:
`MOVE a -> b`, `MOVE-DIR a -> b`, `DELETE p (reason)`, `PRUNE p`,
`ERROR moving p: ...`, `ERROR moving dir p: ...`. -/
inductive LogLine where
  | move (src dest : Path)
  | moveDir (src dest : Path)
  | del (p : Path) (reason : Str)
  | prune (p : Path)
  | errMove (p : Path)
  | errMoveDir (p : Path)
deriving DecidableEq, Repr

/-- Is the log line one of the two `ERROR moving …` lines? -/
def LogLine.isErr : LogLine → Bool
  | .errMove _ => true
  | .errMoveDir _ => true
  | _ => false

/-- Result of `fs::rename`: success, a cross-device (`EXDEV`) failure as
distinguished by `is_cross_device`, or any other failure. -/
inductive RenameRes (σ : Type) where
  | ok (s : σ)
  | errCross
  | errOther
deriving DecidableEq

instance {ε α : Type} [DecidableEq ε] [DecidableEq α] : DecidableEq (Except ε α) :=
  fun a b =>
    match a, b with
    | .ok x, .ok y => decidable_of_iff (x = y) (by simp)
    | .error x, .error y => decidable_of_iff (x = y) (by simp)
    | .ok _, .error _ => isFalse (by simp)
    | .error _, .ok _ => isFalse (by simp)

/-- The filesystem operations called by `ActionEngine` and `DedupePlan::apply`,
over an abstract filesystem state `σ`.  Operations whose `Result` the code
consumes return `Option σ`/`RenameRes σ`; operations whose result the code
ignores (`let _ = …`) return the (possibly unchanged) new state directly. -/
structure FSOps (σ : Type) where
  existsP : σ → Path → Bool
  isDir : σ → Path → Bool
  rename : σ → Path → Path → RenameRes σ
  createDirAll : σ → Path → Option σ
  copyFile : σ → Path → Path → Option σ
  copyDirRecursive : σ → Path → Path → Option σ
  removeFile : σ → Path → σ
  removeDirAll : σ → Path → σ
  hardLink : σ → Path → Path → σ
  symlink : σ → Path → Path → σ

/-- `src.file_name().unwrap_or_default()`: the last path component, `""` if none. -/
def lastName (p : Path) : Str := p.getLast?.getD []

/-- `path.parent().unwrap_or(Path::new("."))`: all but the last component
(`["."]` for an empty path, matching the `"."` fallback). -/
def parentOf (p : Path) : Path :=
  match p with
  | [] => [".".data]
  | _ => p.dropLast

/-- Index of the last `'.'` in a file name, if any. -/
def lastDotIdx (name : Str) : Option Nat :=
  (List.range name.length).foldl
    (fun acc i => if name.getD i ' ' = '.' then some i else acc) none

/-- Rust `Path::file_stem` and `Path::extension` on the last component:
split at the last `'.'` unless it is the leading character.
Returns `(stem, extension)`, with the code's `unwrap_or` defaults applied
(`stem = "file"` when there is no file name, `ext = ""` when there is none). -/
def splitStemExt (name : Str) : Str × Str :=
  match name with
  | [] => ("file".data, [])
  | _ =>
    match lastDotIdx name with
    | none => (name, [])
    | some 0 => (name, [])
    | some i => (name.take i, name.drop (i + 1))

/-- The `i`-th collision candidate of `unique_dest_path`:
`{stem}-{i}.{ext}` (or `{stem}-{i}` when the extension is empty) in `parent`. -/
def mkCandidate (parent : Path) (stem ext : Str) (i : Nat) : Path :=
  if ext = [] then parent ++ [stem ++ '-' :: natChars i]
  else parent ++ [stem ++ '-' :: natChars i ++ '.' :: ext]

/-- The `for i in 1..10000` search of `unique_dest_path`, via an explicit
iteration count: starting at index `i` with `c` attempts remaining, return the
first unoccupied candidate, or `none` when all attempts are occupied. -/
def searchFree (ex : Path → Bool) (parent : Path) (stem ext : Str) : Nat → Nat → Option Path
  | _, 0 => none
  | i, c + 1 =>
    let cand := mkCandidate parent stem ext i
    if ex cand then searchFree ex parent stem ext (i + 1) c else some cand

/-- `unique_dest_path` from `actions.rs`: return `path` unchanged when it is
unoccupied; otherwise try `{stem}-{i}.{ext}` for `i` in `1..10000` and return the
first unoccupied candidate, falling back to the original `path` when every
candidate is occupied.  `ex` is the ambient filesystem's `Path::exists`. -/
def uniqueDestPath (ex : Path → Bool) (p : Path) : Path :=
  if ex p then
    let parent := parentOf p
    let se := splitStemExt (lastName p)
    match searchFree ex parent se.1 se.2 1 9999 with
    | some c => c
    | none => p
  else p

/-- The `i`-th collision candidate of `unique_dir_dest`: `{name}-{i}` in `parent`. -/
def mkDirCandidate (parent : Path) (name : Str) (i : Nat) : Path :=
  parent ++ [name ++ '-' :: natChars i]

/-- The `for i in 1..10000` search of `unique_dir_dest`. -/
def searchFreeDir (ex : Path → Bool) (parent : Path) (name : Str) : Nat → Nat → Option Path
  | _, 0 => none
  | i, c + 1 =>
    let cand := mkDirCandidate parent name i
    if ex cand then searchFreeDir ex parent name (i + 1) c else some cand

/-- `unique_dir_dest` from `actions.rs`
(`name = path.file_name().and_then(to_str).unwrap_or("dir")`). -/
def uniqueDirDest (ex : Path → Bool) (p : Path) : Path :=
  if ex p then
    let parent := parentOf p
    let name := if lastName p = [] then "dir".data else lastName p
    match searchFreeDir ex parent name 1 9999 with
    | some c => c
    | none => p
  else p

/-- The construction-time fields of `ActionEngine` (the optional log file only
receives copies of the stdout lines, so it is not modelled separately). -/
structure Engine where
  apply : Bool
  allowCross : Bool

/-- `ActionEngine::move_file`.  Returns the emitted log lines and either the
resulting state or the propagated error (`?` on `create_dir_all` and on the
cross-device `fs::copy`). -/
def execMoveFile {σ : Type} (e : Engine) (ops : FSOps σ) (s : σ)
    (src destDir : Path) : List LogLine × Except Unit σ :=
  let destPath := destDir ++ [lastName src]
  let lg := LogLine.move src destPath
  if e.apply then
    match ops.createDirAll s destDir with
    | none => ([lg], .error ())
    | some s1 =>
      let dp := uniqueDestPath (ops.existsP s1) destPath
      match ops.rename s1 src dp with
      | .ok s2 => ([lg], .ok s2)
      | .errCross =>
        if e.allowCross then
          match ops.copyFile s1 src dp with
          | none => ([lg], .error ())
          | some s2 => ([lg], .ok (ops.removeFile s2 src))
        else ([lg, .errMove src], .ok s1)
      | .errOther => ([lg, .errMove src], .ok s1)
  else ([lg], .ok s)

/-- `ActionEngine::move_dir`. -/
def execMoveDir {σ : Type} (e : Engine) (ops : FSOps σ) (s : σ)
    (srcDir destDir : Path) : List LogLine × Except Unit σ :=
  let lg := LogLine.moveDir srcDir destDir
  if e.apply then
    let dest := if ops.existsP s destDir then uniqueDirDest (ops.existsP s) destDir
                else destDir
    match ops.rename s srcDir dest with
    | .ok s2 => ([lg], .ok s2)
    | .errCross =>
      if e.allowCross then
        match ops.copyDirRecursive s srcDir dest with
        | none => ([lg], .error ())
        | some s2 => ([lg], .ok (ops.removeDirAll s2 srcDir))
      else ([lg, .errMoveDir srcDir], .ok s)
    | .errOther => ([lg, .errMoveDir srcDir], .ok s)
  else ([lg], .ok s)

/-- `ActionEngine::delete`: best-effort removal, errors swallowed, never fails. -/
def execDelete {σ : Type} (e : Engine) (ops : FSOps σ) (s : σ)
    (p : Path) (reason : Str) : List LogLine × σ :=
  (([LogLine.del p reason]),
    if e.apply then (if ops.isDir s p then ops.removeDirAll s p else ops.removeFile s p)
    else s)

/-- `ActionEngine::execute`. -/
def executeAction {σ : Type} (e : Engine) (ops : FSOps σ) (s : σ) :
    Action → List LogLine × Except Unit σ
  | .moveFile src destDir => execMoveFile e ops s src destDir
  | .moveDir srcDir destDir => execMoveDir e ops s srcDir destDir
  | .delete p reason =>
    let r := execDelete e ops s p reason
    (r.1, .ok r.2)

/-- `ActionEngine::execute_all`: execute in order, propagating the first error
(the `?` inside the loop aborts the remaining actions). -/
def executeAll {σ : Type} (e : Engine) (ops : FSOps σ) (s : σ) :
    List Action → List LogLine × Except Unit σ
  | [] => ([], .ok s)
  | a :: rest =>
    match executeAction e ops s a with
    | (lg, .error u) => (lg, .error u)
    | (lg, .ok s1) =>
      let r := executeAll e ops s1 rest
      (lg ++ r.1, r.2)

/-! ### An in-memory filesystem tree -/

/-- A filesystem node: a regular file (with its byte length, also standing in for
its content), a directory with named children in directory order, or a symbolic
link tagged with the result of `is_broken_symlink` (`utils.rs`). -/
inductive Node where
  | file (sz : Nat)
  | dir (children : List (Str × Node))
  | link (broken : Bool)
deriving Repr

mutual

/-- Structural equality test for nodes. -/
def nodeBEq : Node → Node → Bool
  | Node.file a, Node.file b => decide (a = b)
  | Node.link a, Node.link b => decide (a = b)
  | Node.dir cs, Node.dir ds => entsBEq cs ds
  | _, _ => false

/-- Structural equality test for children lists. -/
def entsBEq : List (Str × Node) → List (Str × Node) → Bool
  | [], [] => true
  | (n1, c1) :: r1, (n2, c2) :: r2 =>
    decide (n1 = n2) && nodeBEq c1 c2 && entsBEq r1 r2
  | [], _ :: _ => false
  | _ :: _, [] => false

end

mutual

theorem nodeBEq_iff : ∀ a b : Node, nodeBEq a b = true ↔ a = b
  | Node.file _, Node.file _ => by simp [nodeBEq]
  | Node.file _, Node.dir _ => by simp [nodeBEq]
  | Node.file _, Node.link _ => by simp [nodeBEq]
  | Node.dir _, Node.file _ => by simp [nodeBEq]
  | Node.dir cs, Node.dir ds => by simp [nodeBEq, entsBEq_iff cs ds]
  | Node.dir _, Node.link _ => by simp [nodeBEq]
  | Node.link _, Node.file _ => by simp [nodeBEq]
  | Node.link _, Node.dir _ => by simp [nodeBEq]
  | Node.link _, Node.link _ => by simp [nodeBEq]

theorem entsBEq_iff : ∀ cs ds : List (Str × Node), entsBEq cs ds = true ↔ cs = ds
  | [], [] => by simp [entsBEq]
  | [], _ :: _ => by simp [entsBEq]
  | _ :: _, [] => by simp [entsBEq]
  | (n1, c1) :: r1, (n2, c2) :: r2 => by
    simp only [entsBEq, Bool.and_eq_true, decide_eq_true_eq,
      nodeBEq_iff c1 c2, entsBEq_iff r1 r2, List.cons.injEq, Prod.mk.injEq]

end

instance : DecidableEq Node := fun a b => decidable_of_iff _ (nodeBEq_iff a b)

/-- Find a child by name in a directory's children list. -/
def findEntry (cs : List (Str × Node)) (nm : Str) : Option Node :=
  (cs.find? (fun c => decide (c.1 = nm))).map Prod.snd

/-- Replace the child named `nm` (append it when missing). -/
def replaceEntry : List (Str × Node) → Str → Node → List (Str × Node)
  | [], nm, v => [(nm, v)]
  | (a, b) :: rest, nm, v =>
    if a = nm then (a, v) :: rest else (a, b) :: replaceEntry rest nm v

/-- Resolve a path inside a tree. -/
def lookupN : Node → Path → Option Node
  | n, [] => some n
  | Node.dir cs, nm :: rest =>
    match findEntry cs nm with
    | some child => lookupN child rest
    | none => none
  | _, _ :: _ => none

/-- Remove the entry at a path (no-op when the path does not resolve). -/
def removeAt : Node → Path → Node
  | n, [] => n
  | Node.dir cs, [nm] => Node.dir (cs.filter fun c => !decide (c.1 = nm))
  | Node.dir cs, nm :: rest =>
    Node.dir (cs.map fun c => if c.1 = nm then (c.1, removeAt c.2 rest) else c)
  | n, _ :: _ => n

/-- Insert (or overwrite) a node at a path whose parent directory exists. -/
def insertAt : Node → Path → Node → Option Node
  | _, [], v => some v
  | Node.dir cs, [nm], v => some (Node.dir (replaceEntry cs nm v))
  | Node.dir cs, nm :: rest, v =>
    match findEntry cs nm with
    | some child => (insertAt child rest v).map (fun ch => Node.dir (replaceEntry cs nm ch))
    | none => none
  | _, _ :: _, _ => none

/-- `fs::create_dir_all`: create every missing directory along the path; fail when
an existing non-directory blocks it. -/
def createDirAllN : Node → Path → Option Node
  | Node.dir cs, [] => some (Node.dir cs)
  | _, [] => none
  | Node.dir cs, nm :: rest =>
    let child := (findEntry cs nm).getD (Node.dir [])
    (createDirAllN child rest).map (fun ch => Node.dir (replaceEntry cs nm ch))
  | _, _ :: _ => none

/-- `fs::rename` on the tree: requires the source to exist and the destination's
parent to be an existing directory; overwrites any entry already at the
destination.  A single tree is one device, so `EXDEV` never occurs. -/
def renameN (s : Node) (a b : Path) : RenameRes Node :=
  match lookupN s a with
  | none => .errOther
  | some n =>
    match lookupN s (parentOf b) with
    | some (Node.dir _) =>
      match insertAt (removeAt s a) b n with
      | some s1 => .ok s1
      | none => .errOther
    | _ => .errOther

/-- The tree instantiation of the filesystem interface. -/
def treeOps : FSOps Node where
  existsP := fun s p => (lookupN s p).isSome
  isDir := fun s p =>
    match lookupN s p with
    | some (Node.dir _) => true
    | _ => false
  rename := renameN
  createDirAll := createDirAllN
  copyFile := fun s a b =>
    match lookupN s a with
    | some n => insertAt s b n
    | none => none
  copyDirRecursive := fun s a b =>
    match lookupN s a with
    | some n => insertAt s b n
    | none => none
  removeFile := fun s p => removeAt s p
  removeDirAll := fun s p => removeAt s p
  hardLink := fun s a b =>
    match lookupN s a with
    | some n => (insertAt s b n).getD s
    | none => s
  symlink := fun s _ b => (insertAt s b (Node.link false)).getD s

/-! ### `ActionEngine::prune_empty_dirs` -/

mutual

/-- The bottom-up pruning walk (`contents_first`) at the entry `p`: a directory
entry is visited after its contents; entries under a skip-root are left
untouched (every entry of such a subtree is individually skipped); a directory
that is empty at visit time is logged as `PRUNE` and, in apply mode, removed
(`none` means the entry removed itself from its parent). -/
def pruneNode (ap : Bool) (skips : List Path) (p : Path) :
    Node → Option Node × List LogLine
  | Node.dir cs =>
    if underAny skips p then (some (Node.dir cs), [])
    else
      let r := pruneEnts ap skips p cs
      if r.1.isEmpty then
        ((if ap then none else some (Node.dir r.1)), r.2 ++ [LogLine.prune p])
      else (some (Node.dir r.1), r.2)
  | n => (some n, [])

/-- Prune the children of a directory at `pp`, in directory order. -/
def pruneEnts (ap : Bool) (skips : List Path) (pp : Path) :
    List (Str × Node) → List (Str × Node) × List LogLine
  | [] => ([], [])
  | (nm, c) :: rest =>
    let rc := pruneNode ap skips (pp ++ [nm]) c
    let rr := pruneEnts ap skips pp rest
    (match rc.1 with
     | some c1 => (nm, c1) :: rr.1
     | none => rr.1,
     rc.2 ++ rr.2)

end

/-- `prune_empty_dirs(root, skip_roots)`: the root itself is never visited
(`min_depth(1)`). -/
def pruneEmptyDirs (ap : Bool) (skips : List Path) (rootPath : Path) :
    Node → Node × List LogLine
  | Node.dir cs =>
    let r := pruneEnts ap skips rootPath cs
    (Node.dir r.1, r.2)
  | n => (n, [])

/-! ### The planner (`main.rs` planning loop) -/

/-- The inputs of the planning loop in `main`: the skip-root set, the fixed
category directory names, the optional `--under` name, the `--clean` flag, the
destination root, and the classifier callbacks.  `deleteMatch` is
`is_pattern_match(&delete_matcher, ..)`, `detect` is
`Categorizer::detect_special_directory` and `catFile` is
`Categorizer::categorize_file` (both read the filesystem, so they receive the
node as well as the path). -/
structure PlanCtx where
  skips : List Path
  categoryDirs : List Str
  under : Option Str
  clean : Bool
  destRoot : Path
  deleteMatch : Path → Bool
  detect : Path → Node → Option Category
  catFile : Path → Node → Category

mutual

/-- One step of the planning traversal at entry `p` (with file name `nm`):
skip-roots first; broken-symlink deletion; directory handling (category-name
skip, whole-directory move via `detect`, otherwise descend); file handling
(delete-pattern, empty-file, classified move).  Entries inside a directory
planned as a whole-directory move are never visited (`skip_current_dir`). -/
def planNode (ctx : PlanCtx) (p : Path) (nm : Str) : Node → List Action
  | Node.link b =>
    if underAny ctx.skips p then []
    else if b then [Action.delete p "broken symlink".data] else []
  | Node.dir cs =>
    if underAny ctx.skips p then []
    else if ctx.categoryDirs.any (fun c => decide (c = nm)) ∨ ctx.under = some nm then []
    else
      match ctx.detect p (Node.dir cs) with
      | some cat => [Action.moveDir p (ctx.destRoot ++ [cat.asDir, nm])]
      | none => planChildren ctx p cs
  | Node.file sz =>
    if underAny ctx.skips p then []
    else if ctx.deleteMatch p ∧ ctx.clean then
      [Action.delete p "cache/temp/junk (pattern)".data]
    else if sz = 0 ∧ ctx.clean then [Action.delete p "empty file".data]
    else [Action.moveFile p
      (ctx.destRoot ++ [(ctx.catFile p (Node.file sz)).asDir])]

/-- Plan the children of a directory, in directory order. -/
def planChildren (ctx : PlanCtx) (p : Path) : List (Str × Node) → List Action
  | [] => []
  | (nm, c) :: rest => planNode ctx (p ++ [nm]) nm c ++ planChildren ctx p rest

end

/-- Plan a whole tree, starting from the walk's first entry: the root itself. -/
def planTree (ctx : PlanCtx) (rootPath : Path) (root : Node) : List Action :=
  planNode ctx rootPath (lastName rootPath) root

mutual

/-- Well-formedness of a tree: sibling names are distinct at every directory. -/
def wfNode : Node → Bool
  | Node.dir cs => decide ((cs.map Prod.fst).Nodup) && wfEnts cs
  | _ => true

/-- Well-formedness of a children list. -/
def wfEnts : List (Str × Node) → Bool
  | [] => true
  | (_, c) :: rest => wfNode c && wfEnts rest

end

/-! ### The dedupe engine (`dedupe.rs`) -/

/-- `DedupeMethod`. -/
inductive DedupeMethod where
  | name | size | hash
deriving DecidableEq, Repr

/-- `DedupeMode`. -/
inductive DedupeMode where
  | delete | hardlink | symlink
deriving DecidableEq, Repr

/-- `FileInfo`: scan-time record of one regular file.  `hash` is the optional
BLAKE3 digest (32 bytes); it stays `none` when hashing was not requested or
failed with an I/O error. -/
structure FileInfo where
  path : Path
  fname : Str
  size : Nat
  hash : Option (List Nat)
deriving DecidableEq, Repr

/-- The per-method sub-key pushed into `parts` by `DedupePlan::apply`:
`N:{name}`, `S:{size}`, `H:{hex or NOHASH}`. -/
def subKey (m : DedupeMethod) (f : FileInfo) : Str :=
  match m with
  | .name => 'N' :: ':' :: f.fname
  | .size => 'S' :: ':' :: natChars f.size
  | .hash =>
    'H' :: ':' :: (match f.hash with
      | some h => hexEncode h
      | none => "NOHASH".data)

/-- `Vec::join("|")`. -/
def joinBar : List Str → Str
  | [] => []
  | [p] => p
  | p :: q :: rest => p ++ '|' :: joinBar (q :: rest)

/-- The grouping key of a file: the `"|"`-joined sub-keys of every enabled
method, in method order. -/
def dkey (ms : List DedupeMethod) (f : FileInfo) : Str :=
  joinBar (ms.map (fun m => subKey m f))

/-- `groups.entry(key).or_default().push(fi)`: append `f` to the group keyed
`k`, creating the group at the end when absent (models the `HashMap` whose
iteration order over groups is arbitrary but whose per-group `Vec` preserves
insertion order). -/
def insertGroup (k : Str) (f : FileInfo) :
    List (Str × List FileInfo) → List (Str × List FileInfo)
  | [] => [(k, [f])]
  | (k0, g) :: rest =>
    if k0 = k then (k0, g ++ [f]) :: rest else (k0, g) :: insertGroup k f rest

/-- Build the duplicate groups of `DedupePlan::apply` by folding over the
scanned files in scan order. -/
def buildGroupsGo (ms : List DedupeMethod) :
    List FileInfo → List (Str × List FileInfo) → List (Str × List FileInfo)
  | [], acc => acc
  | f :: rest, acc => buildGroupsGo ms rest (insertGroup (dkey ms f) f acc)

/-- The duplicate groups of a scan. -/
def buildGroups (ms : List DedupeMethod) (fs : List FileInfo) :
    List (Str × List FileInfo) :=
  buildGroupsGo ms fs []

/-- The `Delete` reason used for a duplicate in each mode. -/
def dupReason : DedupeMode → Str
  | .delete => "duplicate file".data
  | .hardlink => "duplicate file (to hardlink)".data
  | .symlink => "duplicate file (to symlink)".data

/-- Resolution of one duplicate against the kept file: always a `Delete`
through the engine; in hardlink/symlink mode and apply mode, additionally the
(`let _ =`, result-ignored) link recreation. -/
def applyDup {σ : Type} (mode : DedupeMode) (e : Engine) (ops : FSOps σ)
    (keep : FileInfo) (s : σ) (dup : FileInfo) : σ × List LogLine :=
  let r := execDelete e ops s dup.path (dupReason mode)
  let s1 := r.2
  match mode with
  | .delete => (s1, r.1)
  | .hardlink => ((if e.apply then ops.hardLink s1 keep.path dup.path else s1), r.1)
  | .symlink => ((if e.apply then ops.symlink s1 keep.path dup.path else s1), r.1)

/-- Fold `applyDup` over the non-canonical members of one group. -/
def applyDups {σ : Type} (mode : DedupeMode) (e : Engine) (ops : FSOps σ)
    (keep : FileInfo) : σ → List FileInfo → σ × List LogLine
  | s, [] => (s, [])
  | s, d :: rest =>
    let r1 := applyDup mode e ops keep s d
    let r2 := applyDups mode e ops keep r1.1 rest
    (r2.1, r1.2 ++ r2.2)

/-- Resolution of one group: groups of size ≤ 1 are skipped; otherwise the
first file is kept and the rest are resolved as duplicates. -/
def applyGroup {σ : Type} (mode : DedupeMode) (e : Engine) (ops : FSOps σ)
    (s : σ) : List FileInfo → σ × List LogLine
  | [] => (s, [])
  | g@(keep :: rest) =>
    if g.length ≤ 1 then (s, []) else applyDups mode e ops keep s rest

/-- `DedupePlan::apply` over the built groups. -/
def dedupeApply {σ : Type} (mode : DedupeMode) (e : Engine) (ops : FSOps σ) :
    σ → List (Str × List FileInfo) → σ × List LogLine
  | s, [] => (s, [])
  | s, (_, g) :: rest =>
    let r1 := applyGroup mode e ops s g
    let r2 := dedupeApply mode e ops r1.1 rest
    (r2.1, r1.2 ++ r2.2)

mutual

/-- `DedupePlan::scan`: collect every regular file under a subtree in walk
order (symlinks not followed).  `withHash` states whether `DedupeMethod::Hash`
is enabled; `hashFn` yields the digest of the file at a path (`none` models an
I/O error while hashing, which leaves the record unhashed). -/
def scanNode (withHash : Bool) (hashFn : Path → Option (List Nat)) (p : Path)
    (nm : Str) : Node → List FileInfo
  | Node.file sz =>
    [{ path := p, fname := nm, size := sz,
       hash := if withHash then hashFn p else none }]
  | Node.dir cs => scanEnts withHash hashFn p cs
  | Node.link _ => []

/-- Scan the children of a directory in order. -/
def scanEnts (withHash : Bool) (hashFn : Path → Option (List Nat)) (p : Path) :
    List (Str × Node) → List FileInfo
  | [] => []
  | (nm, c) :: rest =>
    scanNode withHash hashFn (p ++ [nm]) nm c ++ scanEnts withHash hashFn p rest

end

/-! ### The full run (`main`) -/

/-- The flags of a run that the core consumes. -/
structure RunFlags where
  clean : Bool
  pruneEmpty : Bool
  allowCross : Bool
  methods : List DedupeMethod
  mode : DedupeMode

/-- One full run of `main`'s core pipeline on an input tree: plan (no
mutation), execute the planned actions in order (aborting everything else on a
propagated error, as `execute_all(..)?` does), then the optional pruning pass,
then the optional dedupe phase scanning the destination root of the possibly
mutated tree.  Returns the emitted log lines and the planned actions. -/
def runOrganizer (ap : Bool) (flags : RunFlags) (ctx : PlanCtx)
    (hashFn : Path → Option (List Nat)) (rootPath : Path) (tree : Node) :
    List LogLine × List Action :=
  let acts := planTree ctx rootPath tree
  let e : Engine := ⟨ap, flags.allowCross⟩
  let r := executeAll e treeOps tree acts
  match r.2 with
  | .error _ => (r.1, acts)
  | .ok t1 =>
    let pr := if flags.pruneEmpty then pruneEmptyDirs ap ctx.skips rootPath t1
              else (t1, [])
    let dlg :=
      if flags.methods.isEmpty then []
      else
        let sub := lookupN pr.1 ctx.destRoot
        let files :=
          match sub with
          | some n =>
            scanNode (flags.methods.contains .hash) hashFn ctx.destRoot
              (lastName ctx.destRoot) n
          | none => []
        (dedupeApply flags.mode e treeOps pr.1 (buildGroups flags.methods files)).2
    (r.1 ++ pr.2 ++ dlg, acts)

/-! ### Claim theorems -/

mutual

theorem pruneNode_dry (skips : List Path) : ∀ (p : Path) (n : Node),
    (pruneNode false skips p n).1 = some n
  | p, Node.dir cs => by
    have h := pruneEnts_dry skips p cs
    by_cases hu : underAny skips p = true
    · simp [pruneNode, hu]
    · simp only [Bool.not_eq_true] at hu
      cases hcs : cs.isEmpty
      · simp [pruneNode, hu, h, hcs]
      · simp [pruneNode, hu, h, hcs]
  | _, Node.file _ => rfl
  | _, Node.link _ => rfl

theorem pruneEnts_dry (skips : List Path) : ∀ (pp : Path) (cs : List (Str × Node)),
    (pruneEnts false skips pp cs).1 = cs
  | _, [] => rfl
  | pp, (nm, c) :: rest => by
    have h1 := pruneNode_dry skips (pp ++ [nm]) c
    have h2 := pruneEnts_dry skips pp rest
    simp only [pruneEnts, h1, h2]

end

/-- C1: in dry-run mode (`apply = false`) every action — `MoveFile`, `MoveDir`,
`Delete` — and every step of the pruning pass emits exactly its log line and
leaves the filesystem state untouched: no rename, copy, create-dir, remove,
hard-link or symlink operation of the filesystem interface is invoked, and the
pruning pass returns the tree unchanged.  Only apply mode mutates. -/
theorem c1_dry_run_no_mutation :
    (∀ (σ : Type) (ops : FSOps σ) (s : σ) (src destDir srcDir p : Path)
       (reason : Str) (ac : Bool),
        execMoveFile ⟨false, ac⟩ ops s src destDir
          = ([LogLine.move src (destDir ++ [lastName src])], Except.ok s)
      ∧ execMoveDir ⟨false, ac⟩ ops s srcDir destDir
          = ([LogLine.moveDir srcDir destDir], Except.ok s)
      ∧ execDelete ⟨false, ac⟩ ops s p reason = ([LogLine.del p reason], s))
  ∧ (∀ (skips : List Path) (rootPath : Path) (root : Node),
      (pruneEmptyDirs false skips rootPath root).1 = root) := by
  constructor
  · intro σ ops s src destDir srcDir p reason ac
    exact ⟨rfl, rfl, rfl⟩
  · intro skips rootPath root
    cases root with
    | dir cs => simp [pruneEmptyDirs, pruneEnts_dry]
    | file sz => rfl
    | link b => rfl

/-- C3 counterexample: with `/out` occupied by a regular file, executing
`[MoveFile /a -> /out, Delete /b]` in apply mode fails `create_dir_all` on the
first action; the propagated error aborts `execute_all`, so the second action
is never executed and its `DELETE` line is never emitted — an individual
action error is fatal to the rest of the run. -/
theorem c3_counterexample :
    executeAll ⟨true, false⟩ treeOps
        (Node.dir [("a".data, Node.file 1), ("b".data, Node.file 2),
          ("out".data, Node.file 3)])
        [Action.moveFile ["a".data] ["out".data],
          Action.delete ["b".data] "r".data]
      = ([LogLine.move ["a".data] ["out".data, "a".data]], Except.error ())
    ∧ LogLine.del ["b".data] "r".data
        ∉ (executeAll ⟨true, false⟩ treeOps
            (Node.dir [("a".data, Node.file 1), ("b".data, Node.file 2),
              ("out".data, Node.file 3)])
            [Action.moveFile ["a".data] ["out".data],
              Action.delete ["b".data] "r".data]).1 := by
  constructor
  · decide
  · decide

/-- C3 amended: an error of the rename call itself (the generic `Err` arm) is
only logged — execution continues with the remaining planned actions — and a
`Delete` action never fails; but (per the counterexample) errors propagated
with `?` (destination-directory creation, cross-device copy fallbacks) abort
the remaining actions, as does the startup log-file failure. -/
theorem c3_amended {σ : Type} (ops : FSOps σ) (ac : Bool) (s s1 : σ)
    (src destDir p : Path) (reason : Str) (rest : List Action)
    (hcd : ops.createDirAll s destDir = some s1)
    (hrn : ops.rename s1 src
        (uniqueDestPath (ops.existsP s1) (destDir ++ [lastName src]))
      = RenameRes.errOther) :
    (executeAll ⟨true, ac⟩ ops s (Action.moveFile src destDir :: rest)
      = (LogLine.move src (destDir ++ [lastName src]) :: LogLine.errMove src ::
          (executeAll ⟨true, ac⟩ ops s1 rest).1,
         (executeAll ⟨true, ac⟩ ops s1 rest).2))
  ∧ (∀ s2 : σ, executeAll ⟨true, ac⟩ ops s2 (Action.delete p reason :: rest)
      = (LogLine.del p reason ::
          (executeAll ⟨true, ac⟩ ops (execDelete ⟨true, ac⟩ ops s2 p reason).2 rest).1,
         (executeAll ⟨true, ac⟩ ops (execDelete ⟨true, ac⟩ ops s2 p reason).2 rest).2)) := by
  constructor
  · simp [executeAll, executeAction, execMoveFile, hcd, hrn]
  · intro s2
    simp [executeAll, executeAction, execDelete]

theorem c3_amended_witness :
    (treeOps.createDirAll (Node.dir [("out".data, Node.dir [])]) ["out".data]
        = some (Node.dir [("out".data, Node.dir [])]))
    ∧ (treeOps.rename (Node.dir [("out".data, Node.dir [])]) ["gone".data]
        (uniqueDestPath (treeOps.existsP (Node.dir [("out".data, Node.dir [])]))
          (["out".data] ++ [lastName ["gone".data]]))
      = RenameRes.errOther)
    ∧ ((executeAll ⟨true, false⟩ treeOps (Node.dir [("out".data, Node.dir [])])
          (Action.moveFile ["gone".data] ["out".data] ::
            [Action.delete ["b".data] "x".data])
        = (LogLine.move ["gone".data] (["out".data] ++ [lastName ["gone".data]]) ::
            LogLine.errMove ["gone".data] ::
            (executeAll ⟨true, false⟩ treeOps (Node.dir [("out".data, Node.dir [])])
              [Action.delete ["b".data] "x".data]).1,
           (executeAll ⟨true, false⟩ treeOps (Node.dir [("out".data, Node.dir [])])
              [Action.delete ["b".data] "x".data]).2)) ∧
        (∀ s2 : Node, executeAll ⟨true, false⟩ treeOps s2
            (Action.delete ["p".data] "why".data :: [Action.delete ["b".data] "x".data])
          = (LogLine.del ["p".data] "why".data ::
              (executeAll ⟨true, false⟩ treeOps
                (execDelete ⟨true, false⟩ treeOps s2 ["p".data] "why".data).2
                [Action.delete ["b".data] "x".data]).1,
             (executeAll ⟨true, false⟩ treeOps
                (execDelete ⟨true, false⟩ treeOps s2 ["p".data] "why".data).2
                [Action.delete ["b".data] "x".data]).2))) :=
  ⟨by decide, by decide,
    c3_amended treeOps false _ _ ["gone".data] ["out".data] ["p".data] "why".data
      [Action.delete ["b".data] "x".data] (by decide) (by decide)⟩

/-! ### C6 and C10: collision-safe renaming -/

theorem searchFree_found (ex : Path → Bool) (parent : Path) (stem ext : Str) :
    ∀ (c i k : Nat), i ≤ k → k < i + c →
    (∀ j, i ≤ j → j < k → ex (mkCandidate parent stem ext j) = true) →
    ex (mkCandidate parent stem ext k) = false →
    searchFree ex parent stem ext i c = some (mkCandidate parent stem ext k)
  | 0, i, k, h1, h2, _, _ => by omega
  | c + 1, i, k, h1, h2, hbusy, hfree => by
    by_cases hik : i = k
    · subst hik
      simp [searchFree, hfree]
    · have hlt : i < k := by omega
      have hi : ex (mkCandidate parent stem ext i) = true :=
        hbusy i le_rfl hlt
      simp only [searchFree, hi, if_true]
      exact searchFree_found ex parent stem ext c (i + 1) k (by omega) (by omega)
        (fun j hj1 hj2 => hbusy j (by omega) hj2) hfree

theorem searchFree_none (ex : Path → Bool) (parent : Path) (stem ext : Str) :
    ∀ (c i : Nat),
    (∀ j, i ≤ j → j < i + c → ex (mkCandidate parent stem ext j) = true) →
    searchFree ex parent stem ext i c = none
  | 0, i, _ => by simp [searchFree]
  | c + 1, i, hbusy => by
    have hi : ex (mkCandidate parent stem ext i) = true :=
      hbusy i le_rfl (by omega)
    simp only [searchFree, hi, if_true]
    exact searchFree_none ex parent stem ext c (i + 1)
      (fun j hj1 hj2 => hbusy j (by omega) (by omega))

/-- C6: when the exact destination is occupied, `unique_dest_path` returns the
first unoccupied suffixed candidate `{stem}-{k}.{ext}` (numeric suffix before
the extension): for the least `k ≤ 9999` whose candidate is unoccupied, the
result is exactly that candidate (first conjunct); and `move_file` in apply
mode then renames the source onto exactly that candidate (second conjunct). -/
theorem c6_collision_rename :
    (∀ (ex : Path → Bool) (p : Path) (k : Nat),
      ex p = true → 1 ≤ k → k ≤ 9999 →
      ex (mkCandidate (parentOf p) (splitStemExt (lastName p)).1
        (splitStemExt (lastName p)).2 k) = false →
      (∀ j, 1 ≤ j → j < k →
        ex (mkCandidate (parentOf p) (splitStemExt (lastName p)).1
          (splitStemExt (lastName p)).2 j) = true) →
      uniqueDestPath ex p
        = mkCandidate (parentOf p) (splitStemExt (lastName p)).1
            (splitStemExt (lastName p)).2 k)
    ∧ (∀ (σ : Type) (ops : FSOps σ) (ac : Bool) (s s1 s2 : σ)
        (src destDir : Path) (k : Nat),
        ops.createDirAll s destDir = some s1 →
        ops.existsP s1 (destDir ++ [lastName src]) = true →
        1 ≤ k → k ≤ 9999 →
        ops.existsP s1 (mkCandidate (parentOf (destDir ++ [lastName src]))
          (splitStemExt (lastName (destDir ++ [lastName src]))).1
          (splitStemExt (lastName (destDir ++ [lastName src]))).2 k) = false →
        (∀ j, 1 ≤ j → j < k →
          ops.existsP s1 (mkCandidate (parentOf (destDir ++ [lastName src]))
            (splitStemExt (lastName (destDir ++ [lastName src]))).1
            (splitStemExt (lastName (destDir ++ [lastName src]))).2 j) = true) →
        ops.rename s1 src
            (mkCandidate (parentOf (destDir ++ [lastName src]))
              (splitStemExt (lastName (destDir ++ [lastName src]))).1
              (splitStemExt (lastName (destDir ++ [lastName src]))).2 k)
          = RenameRes.ok s2 →
        execMoveFile ⟨true, ac⟩ ops s src destDir
          = ([LogLine.move src (destDir ++ [lastName src])], Except.ok s2)) := by
  have huniq : ∀ (ex : Path → Bool) (p : Path) (k : Nat),
      ex p = true → 1 ≤ k → k ≤ 9999 →
      ex (mkCandidate (parentOf p) (splitStemExt (lastName p)).1
        (splitStemExt (lastName p)).2 k) = false →
      (∀ j, 1 ≤ j → j < k →
        ex (mkCandidate (parentOf p) (splitStemExt (lastName p)).1
          (splitStemExt (lastName p)).2 j) = true) →
      uniqueDestPath ex p
        = mkCandidate (parentOf p) (splitStemExt (lastName p)).1
            (splitStemExt (lastName p)).2 k := by
    intro ex p k hocc hk1 hk2 hfree hbusy
    unfold uniqueDestPath
    rw [hocc]
    simp only [if_true]
    rw [searchFree_found ex (parentOf p) (splitStemExt (lastName p)).1
      (splitStemExt (lastName p)).2 9999 1 k hk1 (by omega) hbusy hfree]
  refine ⟨huniq, ?_⟩
  intro σ ops ac s s1 s2 src destDir k hcd hocc hk1 hk2 hfree hbusy hrn
  have hu := huniq (ops.existsP s1) (destDir ++ [lastName src]) k hocc hk1 hk2
    hfree hbusy
  simp only [execMoveFile, hcd, hu, hrn]
  simp

theorem c6_collision_rename_witness :
    ((fun q => decide (q = ["d".data, "foo.txt".data])) ["d".data, "foo.txt".data]
        = true
      ∧ uniqueDestPath (fun q => decide (q = ["d".data, "foo.txt".data]))
          ["d".data, "foo.txt".data] = ["d".data, "foo-1.txt".data])
    ∧ ((fun q => decide (q = ["d".data, "foo.txt".data]
            ∨ q = ["d".data, "foo-1.txt".data]))
          ["d".data, "foo.txt".data] = true
      ∧ uniqueDestPath
          (fun q => decide (q = ["d".data, "foo.txt".data]
            ∨ q = ["d".data, "foo-1.txt".data]))
          ["d".data, "foo.txt".data] = ["d".data, "foo-2.txt".data])
    ∧ execMoveFile ⟨true, false⟩
        (⟨fun _ q => decide (q = ["d".data, "foo.txt".data]), fun _ _ => false,
          fun _ _ _ => RenameRes.ok (), fun _ _ => some (), fun _ _ _ => some (),
          fun _ _ _ => some (), fun _ _ => (), fun _ _ => (), fun _ _ _ => (),
          fun _ _ _ => ()⟩ : FSOps Unit) () ["foo.txt".data] ["d".data]
        = ([LogLine.move ["foo.txt".data] ["d".data, "foo.txt".data]],
           Except.ok ()) := by
  refine ⟨⟨by decide, ?_⟩, ⟨by decide, ?_⟩, ?_⟩
  · rw [c6_collision_rename.1 (fun q => decide (q = ["d".data, "foo.txt".data]))
      ["d".data, "foo.txt".data] 1 (by decide) le_rfl (by omega) (by decide)
      (by intro j h1 h2; omega)]
    decide
  · rw [c6_collision_rename.1
      (fun q => decide (q = ["d".data, "foo.txt".data]
        ∨ q = ["d".data, "foo-1.txt".data]))
      ["d".data, "foo.txt".data] 2 (by decide) (by omega) (by omega) (by decide)
      (by intro j h1 h2; interval_cases j; decide)]
    decide
  · exact c6_collision_rename.2 Unit _ false () () () ["foo.txt".data]
      ["d".data] 1 rfl (by decide) le_rfl (by omega) (by decide)
      (by intro j h1 h2; omega) rfl

instance : Inhabited Node := ⟨Node.dir []⟩

theorem findEntry_replaceEntry (nm : Str) (v : Node) :
    ∀ cs : List (Str × Node), findEntry (replaceEntry cs nm v) nm = some v := by
  intro cs
  induction cs with
  | nil =>
    simp [replaceEntry, findEntry, List.find?]
  | cons hd tl ih =>
    obtain ⟨a, b⟩ := hd
    by_cases hab : a = nm
    · subst hab
      simp [replaceEntry, findEntry, List.find?]
    · rw [replaceEntry, if_neg hab]
      unfold findEntry
      rw [List.find?_cons_of_neg _ (by simp [hab])]
      unfold findEntry at ih
      exact ih

theorem insertAt_lookup : ∀ (p : Path) (s v s1 : Node),
    insertAt s p v = some s1 → lookupN s1 p = some v
  | [], s, v, s1, h => by
    simp only [insertAt, Option.some.injEq] at h
    subst h
    cases v <;> rfl
  | [nm], s, v, s1, h => by
    cases s with
    | dir cs =>
      simp only [insertAt, Option.some.injEq] at h
      subst h
      simp [lookupN, findEntry_replaceEntry]
    | file sz => simp [insertAt] at h
    | link b => simp [insertAt] at h
  | nm :: nm2 :: rest, s, v, s1, h => by
    cases s with
    | dir cs =>
      simp only [insertAt] at h
      cases hf : findEntry cs nm with
      | none =>
        rw [hf] at h
        dsimp only at h
        exact absurd h (by simp)
      | some child =>
        rw [hf] at h
        dsimp only at h
        cases hins : insertAt child (nm2 :: rest) v with
        | none =>
          rw [hins] at h
          exact absurd h (by simp)
        | some ch =>
          rw [hins] at h
          simp only [Option.map_some', Option.some.injEq] at h
          subst h
          simp only [lookupN, findEntry_replaceEntry]
          exact insertAt_lookup (nm2 :: rest) child v ch hins
    | file sz => simp [insertAt] at h
    | link b => simp [insertAt] at h

/-- C10 (implicit): when the exact destination and all 9999 suffixed
candidates are occupied, `unique_dest_path` falls back to the original,
still-occupied destination path (first conjunct); `move_file` in apply mode
then renames the source onto that occupied path and logs no error (second
conjunct); and such a rename — modelled on the tree filesystem with POSIX
overwrite semantics — replaces whatever was at the destination with the source
entry (third conjunct): the existing destination file is silently overwritten. -/
theorem c10_exhausted_suffixes :
    (∀ (ex : Path → Bool) (p : Path), ex p = true →
      (∀ j, 1 ≤ j → j ≤ 9999 →
        ex (mkCandidate (parentOf p) (splitStemExt (lastName p)).1
          (splitStemExt (lastName p)).2 j) = true) →
      uniqueDestPath ex p = p)
  ∧ (∀ (σ : Type) (ops : FSOps σ) (ac : Bool) (s s1 s2 : σ) (src destDir : Path),
      ops.createDirAll s destDir = some s1 →
      ops.existsP s1 (destDir ++ [lastName src]) = true →
      (∀ j, 1 ≤ j → j ≤ 9999 →
        ops.existsP s1 (mkCandidate (parentOf (destDir ++ [lastName src]))
          (splitStemExt (lastName (destDir ++ [lastName src]))).1
          (splitStemExt (lastName (destDir ++ [lastName src]))).2 j) = true) →
      ops.rename s1 src (destDir ++ [lastName src]) = RenameRes.ok s2 →
      execMoveFile ⟨true, ac⟩ ops s src destDir
        = ([LogLine.move src (destDir ++ [lastName src])], Except.ok s2))
  ∧ (∀ (t t2 : Node) (a b : Path) (n : Node),
      lookupN t a = some n → renameN t a b = RenameRes.ok t2 →
      lookupN t2 b = some n) := by
  refine ⟨?_, ?_, ?_⟩
  · intro ex p hocc hbusy
    unfold uniqueDestPath
    rw [hocc]
    simp only [if_true]
    rw [searchFree_none ex (parentOf p) (splitStemExt (lastName p)).1
      (splitStemExt (lastName p)).2 9999 1
      (fun j h1 h2 => hbusy j h1 (by omega))]
  · intro σ ops ac s s1 s2 src destDir hcd hocc hbusy hrn
    have hu : uniqueDestPath (ops.existsP s1) (destDir ++ [lastName src])
        = destDir ++ [lastName src] := by
      unfold uniqueDestPath
      rw [hocc]
      simp only [if_true]
      rw [searchFree_none (ops.existsP s1) (parentOf (destDir ++ [lastName src]))
        (splitStemExt (lastName (destDir ++ [lastName src]))).1
        (splitStemExt (lastName (destDir ++ [lastName src]))).2 9999 1
        (fun j h1 h2 => hbusy j h1 (by omega))]
    simp [execMoveFile, hcd, hu, hrn]
  · intro t t2 a b n hl hr
    unfold renameN at hr
    rw [hl] at hr
    dsimp only at hr
    cases hp : lookupN t (parentOf b) with
    | none =>
      rw [hp] at hr
      dsimp only at hr
      exact absurd hr (by simp)
    | some pn =>
      rw [hp] at hr
      cases pn with
      | dir pcs =>
        dsimp only at hr
        cases hins : insertAt (removeAt t a) b n with
        | none =>
          rw [hins] at hr
          dsimp only at hr
          exact absurd hr (by simp)
        | some s1 =>
          rw [hins] at hr
          dsimp only at hr
          cases hr
          exact insertAt_lookup b (removeAt t a) n t2 hins
      | file sz =>
        dsimp only at hr
        exact absurd hr (by simp)
      | link lb =>
        dsimp only at hr
        exact absurd hr (by simp)

theorem c10_exhausted_suffixes_witness :
    (((fun _ => true) (["x".data]) = true)
      ∧ uniqueDestPath (fun _ => true) ["x".data] = ["x".data])
    ∧ (lookupN (Node.dir [("x".data, Node.file 7), ("y".data, Node.file 9)])
          ["x".data] = some (Node.file 7)
      ∧ renameN (Node.dir [("x".data, Node.file 7), ("y".data, Node.file 9)])
          ["x".data] ["y".data]
          = RenameRes.ok (Node.dir [("y".data, Node.file 7)])
      ∧ lookupN (Node.dir [("y".data, Node.file 7)]) ["y".data]
          = some (Node.file 7)) := by
  refine ⟨⟨rfl, ?_⟩, by decide, by decide, ?_⟩
  · exact c10_exhausted_suffixes.1 (fun _ => true) ["x".data] rfl
      (fun j h1 h2 => rfl)
  · exact c10_exhausted_suffixes.2.2
      (Node.dir [("x".data, Node.file 7), ("y".data, Node.file 9)])
      (Node.dir [("y".data, Node.file 7)]) ["x".data] ["y".data] (Node.file 7)
      (by decide) (by decide)

/-! ### C7: symlink handling -/

/-- C7: for every symlink entry encountered by the planner (i.e. not excluded
by a skip-root), a broken symlink is planned for deletion with reason exactly
`"broken symlink"`, and a symlink whose target exists produces no action at all
(it is neither classified nor moved nor deleted). -/
theorem c7_broken_symlink (ctx : PlanCtx) (p : Path) (nm : Str) :
    (underAny ctx.skips p = false →
      planNode ctx p nm (Node.link true) = [Action.delete p "broken symlink".data])
  ∧ (planNode ctx p nm (Node.link false) = []) := by
  constructor
  · intro h
    simp [planNode, h]
  · simp [planNode]

theorem c7_broken_symlink_witness :
    (underAny ([] : List Path) ["s".data] = false)
    ∧ ((underAny ([] : List Path) ["s".data] = false →
        planNode ⟨[], [], none, true, [], fun _ => false, fun _ _ => none,
          fun _ _ => Category.others⟩ ["s".data] "s".data (Node.link true)
          = [Action.delete ["s".data] "broken symlink".data])
      ∧ (planNode ⟨[], [], none, true, [], fun _ => false, fun _ _ => none,
          fun _ _ => Category.others⟩ ["s".data] "s".data (Node.link false) = [])) :=
  ⟨rfl, c7_broken_symlink
    ⟨[], [], none, true, [], fun _ => false, fun _ _ => none,
      fun _ _ => Category.others⟩ ["s".data] "s".data⟩

/-! ### C8: content-sniffing fallback -/

/-- C8 counterexample: `"application/pdf"` is a recognized document MIME, yet a
file with no extension match, content probe disabled, whose magic-byte sniff
yields `"application/pdf"`, is categorized `Others`, not `Documents` — the
`infer` fallback maps only image/video/audio. -/
theorem c8_counterexample :
    isDocumentMime "application/pdf".data = true
    ∧ categorizeFile ⟨[], [], [], []⟩ false none (some "application/pdf".data) none
        = Category.others
    ∧ categorizeFile ⟨[], [], [], []⟩ false none (some "application/pdf".data) none
        ≠ Category.documents := by
  refine ⟨by decide, by decide, by decide⟩

/-- C8 amended: when there is no extension match and the external MIME probe is
disabled or failed, `categorize_file` falls back to the magic-byte sniff of the
first 8 KiB and maps only image/video → Media and audio → Music; every other
sniffed MIME — including recognized document/text and archive MIMEs — and a
failed sniff default the file to `Others`. -/
theorem c8_amended (st : CatSettings) (useFileCmd : Bool) (probe : Option Str)
    (sniffed : Option Str) (ext : Option Str)
    (hext : extLookup st ext = none)
    (hprobe : useFileCmd = false ∨ probe = none) :
    categorizeFile st useFileCmd probe sniffed ext
      = match sniffed with
        | some m =>
          if startsWithStrB "image/".data m || startsWithStrB "video/".data m then
            Category.media
          else if startsWithStrB "audio/".data m then Category.music
          else Category.others
        | none => Category.others := by
  unfold categorizeFile
  rw [hext]
  have hcmd : (if useFileCmd then
      match probe with
      | some m => fileCmdMap m
      | none => none
    else none) = (none : Option Category) := by
    rcases hprobe with h | h
    · simp [h]
    · simp [h]
  rw [hcmd]
  cases sniffed with
  | none => rfl
  | some m =>
    simp only [inferMap]
    by_cases h1 : (startsWithStrB "image/".data m || startsWithStrB "video/".data m) = true
    · simp [h1]
    · simp only [Bool.not_eq_true] at h1
      by_cases h2 : startsWithStrB "audio/".data m = true
      · simp [h1, h2]
      · simp only [Bool.not_eq_true] at h2
        simp [h1, h2]

theorem c8_amended_witness :
    (extLookup ⟨["jpg".data], [], [], []⟩ (some "xyz".data) = none)
    ∧ (false = false ∨ (none : Option Str) = none)
    ∧ categorizeFile ⟨["jpg".data], [], [], []⟩ false none (some "audio/mpeg".data)
        (some "xyz".data) = Category.music := by
  refine ⟨by decide, Or.inl rfl, ?_⟩
  rw [c8_amended ⟨["jpg".data], [], [], []⟩ false none (some "audio/mpeg".data)
    (some "xyz".data) (by decide) (Or.inl rfl)]
  decide

/-! ### C9: link-recreation failures are silent -/

/-- C9 (divergence witness): in hardlink and symlink modes the link-recreation
result is discarded (`let _ = …`); for every filesystem implementation —
including one on which the link call fails — resolving a duplicate emits
exactly the one `DELETE` line and no error line whatsoever.  The failure is
not surfaced in the log, contradicting the claim. -/
theorem c9_link_failure_silent {σ : Type} (ops : FSOps σ) (e : Engine)
    (keep dup : FileInfo) (s : σ) :
    ((applyDup .hardlink e ops keep s dup).2
        = [LogLine.del dup.path "duplicate file (to hardlink)".data])
    ∧ ((applyDup .symlink e ops keep s dup).2
        = [LogLine.del dup.path "duplicate file (to symlink)".data])
    ∧ (∀ l ∈ (applyDup .hardlink e ops keep s dup).2, l.isErr = false) :=
  ⟨rfl, rfl, by
    intro l hl
    simp only [applyDup, execDelete] at hl
    simp only [List.mem_singleton] at hl
    subst hl
    rfl⟩

/-! ### C2: dry-run vs apply over a full run -/

/-- The skip-root set of `main` for root `/root` with no `--under`:
every destination category directory. -/
def exSkips : List Path :=
  [["root".data, "Media".data], ["root".data, "Music".data],
   ["root".data, "Documents".data], ["root".data, "Archives".data],
   ["root".data, "Projects".data], ["root".data, "GitRepos".data],
   ["root".data, "Backups".data], ["root".data, "Others".data]]

/-- A concrete planning context for root `/root`: default flags, no delete
patterns matching, no special directories detected. -/
def exCtx : PlanCtx :=
  ⟨exSkips,
   ["Media".data, "Music".data, "Documents".data, "Archives".data,
    "Projects".data, "GitRepos".data, "Backups".data, "Others".data],
   none, true, ["root".data], fun _ => false, fun _ _ => none,
   fun _ _ => Category.others⟩

/-- Default run flags: clean on, prune on, no cross-device, no dedupe. -/
def exFlags : RunFlags := ⟨true, true, false, [], DedupeMode.delete⟩

/-- `/root/a/b` where `a` contains only the empty directory `b`. -/
def exTree : Node := Node.dir [("a".data, Node.dir [("b".data, Node.dir [])])]

/-- C2 counterexample: on the tree `/root/a/b` (with `b` an empty directory)
the dry run emits only `PRUNE /root/a/b`, while the apply run — whose removal
of `b` leaves `a` empty by the time the bottom-up walk reaches it — emits
`PRUNE /root/a/b` and then `PRUNE /root/a`.  The planned `Action` lists are
identical (both empty), but the emitted log-line sequences differ, refuting
byte-identical logs. -/
theorem c2_counterexample :
    (runOrganizer false exFlags exCtx (fun _ => none) ["root".data] exTree).1
      = [LogLine.prune ["root".data, "a".data, "b".data]]
    ∧ (runOrganizer true exFlags exCtx (fun _ => none) ["root".data] exTree).1
      = [LogLine.prune ["root".data, "a".data, "b".data],
         LogLine.prune ["root".data, "a".data]]
    ∧ (runOrganizer false exFlags exCtx (fun _ => none) ["root".data] exTree).2
      = (runOrganizer true exFlags exCtx (fun _ => none) ["root".data] exTree).2
    ∧ (runOrganizer false exFlags exCtx (fun _ => none) ["root".data] exTree).1
      ≠ (runOrganizer true exFlags exCtx (fun _ => none) ["root".data] exTree).1 := by
  refine ⟨by decide, by decide, by decide, by decide⟩

/-- The one log line every action emits in both modes, before any mutation is
attempted (`MOVE`, `MOVE-DIR` or `DELETE` with the pre-collision destination). -/
def primaryLine : Action → LogLine
  | .moveFile src destDir => .move src (destDir ++ [lastName src])
  | .moveDir srcDir destDir => .moveDir srcDir destDir
  | .delete p reason => .del p reason

theorem executeAll_dry {σ : Type} (ops : FSOps σ) (ac : Bool) :
    ∀ (acts : List Action) (s : σ),
    executeAll ⟨false, ac⟩ ops s acts = (acts.map primaryLine, Except.ok s)
  | [], s => rfl
  | a :: rest, s => by
    have ha : executeAction ⟨false, ac⟩ ops s a = ([primaryLine a], Except.ok s) := by
      cases a <;> rfl
    simp only [executeAll, ha, executeAll_dry ops ac rest s, List.map_cons,
      List.singleton_append]

theorem executeAction_apply_log {σ : Type} (ops : FSOps σ) (ac : Bool)
    (s s2 : σ) (a : Action) (lg0 : List LogLine)
    (h : executeAction ⟨true, ac⟩ ops s a = (lg0, Except.ok s2)) :
    lg0.filter (fun l => !l.isErr) = [primaryLine a] := by
  cases a with
  | moveFile src dd =>
    simp only [executeAction, execMoveFile, if_true] at h
    cases hcd : ops.createDirAll s dd with
    | none =>
      rw [hcd] at h
      dsimp only at h
      rw [Prod.mk.injEq] at h
      exact absurd h.2 (by simp)
    | some s3 =>
      rw [hcd] at h
      dsimp only at h
      cases hrn : ops.rename s3 src
          (uniqueDestPath (ops.existsP s3) (dd ++ [lastName src])) with
      | ok s4 =>
        rw [hrn] at h
        dsimp only at h
        rw [Prod.mk.injEq] at h
        rw [← h.1]
        rfl
      | errCross =>
        rw [hrn] at h
        dsimp only at h
        cases ac with
        | true =>
          rw [if_pos rfl] at h
          cases hcf : ops.copyFile s3 src
              (uniqueDestPath (ops.existsP s3) (dd ++ [lastName src])) with
          | none =>
            rw [hcf] at h
            dsimp only at h
            rw [Prod.mk.injEq] at h
            exact absurd h.2 (by simp)
          | some s5 =>
            rw [hcf] at h
            dsimp only at h
            rw [Prod.mk.injEq] at h
            rw [← h.1]
            rfl
        | false =>
          rw [if_neg (by simp)] at h
          rw [Prod.mk.injEq] at h
          rw [← h.1]
          rfl
      | errOther =>
        rw [hrn] at h
        dsimp only at h
        rw [Prod.mk.injEq] at h
        rw [← h.1]
        rfl
  | moveDir src dd =>
    simp only [executeAction, execMoveDir, if_true] at h
    cases hrn : ops.rename s src
        (if ops.existsP s dd = true then uniqueDirDest (ops.existsP s) dd else dd) with
    | ok s4 =>
      rw [hrn] at h
      dsimp only at h
      rw [Prod.mk.injEq] at h
      rw [← h.1]
      rfl
    | errCross =>
      rw [hrn] at h
      dsimp only at h
      cases ac with
      | true =>
        rw [if_pos rfl] at h
        cases hcf : ops.copyDirRecursive s src
            (if ops.existsP s dd = true then uniqueDirDest (ops.existsP s) dd else dd) with
        | none =>
          rw [hcf] at h
          dsimp only at h
          rw [Prod.mk.injEq] at h
          exact absurd h.2 (by simp)
        | some s5 =>
          rw [hcf] at h
          dsimp only at h
          rw [Prod.mk.injEq] at h
          rw [← h.1]
          rfl
      | false =>
        rw [if_neg (by simp)] at h
        rw [Prod.mk.injEq] at h
        rw [← h.1]
        rfl
    | errOther =>
      rw [hrn] at h
      dsimp only at h
      rw [Prod.mk.injEq] at h
      rw [← h.1]
      rfl
  | delete p reason =>
    simp only [executeAction, execDelete] at h
    rw [Prod.mk.injEq] at h
    rw [← h.1]
    rfl

theorem executeAll_apply_log {σ : Type} (ops : FSOps σ) (ac : Bool) :
    ∀ (acts : List Action) (s s1 : σ) (lg : List LogLine),
    executeAll ⟨true, ac⟩ ops s acts = (lg, Except.ok s1) →
    lg.filter (fun l => !l.isErr) = acts.map primaryLine
  | [], s, s1, lg, h => by
    simp only [executeAll] at h
    rw [Prod.mk.injEq] at h
    rw [← h.1]
    rfl
  | a :: rest, s, s1, lg, h => by
    simp only [executeAll] at h
    cases hea : executeAction ⟨true, ac⟩ ops s a with
    | mk lg0 r0 =>
      rw [hea] at h
      cases r0 with
      | error u =>
        dsimp only at h
        rw [Prod.mk.injEq] at h
        exact absurd h.2 (by simp)
      | ok s3 =>
        dsimp only at h
        rw [Prod.mk.injEq] at h
        rw [← h.1, List.filter_append,
          executeAction_apply_log ops ac s s3 a lg0 hea,
          executeAll_apply_log ops ac rest s3 s1 _ (by
            rw [← h.2]),
          List.map_cons, List.singleton_append]

/-- C2 amended: the planned `Action` list never depends on the apply flag (the
planner takes no such input), and whenever the apply-mode execution of the
planned actions completes without a propagated error, the dry-run execution of
the same actions emits exactly the apply-mode log lines with the apply-only
`ERROR moving …` lines removed — i.e. the per-action `MOVE`/`MOVE-DIR`/`DELETE`
lines coincide.  The `PRUNE` lines of the pruning pass and the dedupe-phase
lines may genuinely differ between the two modes (see the counterexample),
because apply-mode mutations change the tree those later passes observe. -/
theorem c2_amended {σ : Type} (ops : FSOps σ) (ac : Bool) (acts : List Action)
    (s s1 : σ) (lg : List LogLine)
    (h : executeAll ⟨true, ac⟩ ops s acts = (lg, Except.ok s1)) :
    executeAll ⟨false, ac⟩ ops s acts
        = (lg.filter (fun l => !l.isErr), Except.ok s)
      ∧ lg.filter (fun l => !l.isErr) = acts.map primaryLine := by
  have hd := executeAll_dry ops ac acts s
  have hl := executeAll_apply_log ops ac acts s s1 lg h
  exact ⟨by rw [hd, hl], hl⟩

theorem c2_amended_witness :
    (executeAll ⟨true, false⟩ treeOps (Node.dir [("x".data, Node.file 5)])
        [Action.delete ["x".data] "r".data]
      = ([LogLine.del ["x".data] "r".data], Except.ok (Node.dir [])))
    ∧ (executeAll ⟨false, false⟩ treeOps (Node.dir [("x".data, Node.file 5)])
          [Action.delete ["x".data] "r".data]
        = ([LogLine.del ["x".data] "r".data].filter (fun l => !l.isErr),
           Except.ok (Node.dir [("x".data, Node.file 5)]))
      ∧ [LogLine.del ["x".data] "r".data].filter (fun l => !l.isErr)
        = [Action.delete ["x".data] "r".data].map primaryLine) :=
  ⟨by decide,
    c2_amended treeOps false [Action.delete ["x".data] "r".data]
      (Node.dir [("x".data, Node.file 5)]) (Node.dir [])
      [LogLine.del ["x".data] "r".data] (by decide)⟩

/-! ### C4: planner disjointness invariant -/

theorem snoc_prefix_inj {p : Path} {a b : Str} {s : Path}
    (h1 : p ++ [a] <+: s) (h2 : p ++ [b] <+: s) : a = b := by
  obtain ⟨t1, ht1⟩ := h1
  obtain ⟨t2, ht2⟩ := h2
  rw [← ht2] at ht1
  simp only [List.append_assoc] at ht1
  have h3 := List.append_cancel_left ht1
  simp only [List.singleton_append, List.cons.injEq] at h3
  exact h3.1

mutual

theorem planNode_src (ctx : PlanCtx) (p : Path) (nm : Str) :
    ∀ (n : Node), ∀ a ∈ planNode ctx p nm n, p <+: a.src
  | Node.link b, a, ha => by
    simp only [planNode] at ha
    split at ha
    · exact absurd ha (List.not_mem_nil a)
    · split at ha
      · rw [List.mem_singleton] at ha
        subst ha
        exact List.prefix_refl p
      · exact absurd ha (List.not_mem_nil a)
  | Node.file sz, a, ha => by
    simp only [planNode] at ha
    split at ha
    · exact absurd ha (List.not_mem_nil a)
    · split at ha
      · rw [List.mem_singleton] at ha
        subst ha
        exact List.prefix_refl p
      · split at ha
        · rw [List.mem_singleton] at ha
          subst ha
          exact List.prefix_refl p
        · rw [List.mem_singleton] at ha
          subst ha
          exact List.prefix_refl p
  | Node.dir cs, a, ha => by
    simp only [planNode] at ha
    split at ha
    · exact absurd ha (List.not_mem_nil a)
    · split at ha
      · exact absurd ha (List.not_mem_nil a)
      · split at ha
        · rw [List.mem_singleton] at ha
          subst ha
          exact List.prefix_refl p
        · obtain ⟨nm', _, hpre⟩ := planChildren_src ctx p cs a ha
          exact (List.prefix_append p [nm']).trans hpre

theorem planChildren_src (ctx : PlanCtx) (p : Path) :
    ∀ (cs : List (Str × Node)), ∀ a ∈ planChildren ctx p cs,
      ∃ nm', nm' ∈ cs.map Prod.fst ∧ (p ++ [nm']) <+: a.src
  | [], a, ha => absurd ha (List.not_mem_nil a)
  | (nm, c) :: rest, a, ha => by
    simp only [planChildren, List.mem_append] at ha
    rcases ha with h | h
    · exact ⟨nm, by simp, planNode_src ctx (p ++ [nm]) nm c a h⟩
    · obtain ⟨nm', hmem, hpre⟩ := planChildren_src ctx p rest a h
      exact ⟨nm', by simp [hmem], hpre⟩

end

mutual

theorem planNode_noskip (ctx : PlanCtx) (p : Path) (nm : Str) :
    ∀ (n : Node), ∀ a ∈ planNode ctx p nm n, underAny ctx.skips a.src = false
  | Node.link b, a, ha => by
    simp only [planNode] at ha
    split at ha
    · exact absurd ha (List.not_mem_nil a)
    · next hu =>
      split at ha
      · rw [List.mem_singleton] at ha
        subst ha
        simpa using hu
      · exact absurd ha (List.not_mem_nil a)
  | Node.file sz, a, ha => by
    simp only [planNode] at ha
    split at ha
    · exact absurd ha (List.not_mem_nil a)
    · next hu =>
      split at ha
      · rw [List.mem_singleton] at ha
        subst ha
        simpa using hu
      · split at ha
        · rw [List.mem_singleton] at ha
          subst ha
          simpa using hu
        · rw [List.mem_singleton] at ha
          subst ha
          simpa using hu
  | Node.dir cs, a, ha => by
    simp only [planNode] at ha
    split at ha
    · exact absurd ha (List.not_mem_nil a)
    · next hu =>
      split at ha
      · exact absurd ha (List.not_mem_nil a)
      · split at ha
        · rw [List.mem_singleton] at ha
          subst ha
          simpa using hu
        · exact planChildren_noskip ctx p cs a ha

theorem planChildren_noskip (ctx : PlanCtx) (p : Path) :
    ∀ (cs : List (Str × Node)), ∀ a ∈ planChildren ctx p cs,
      underAny ctx.skips a.src = false
  | [], a, ha => absurd ha (List.not_mem_nil a)
  | (nm, c) :: rest, a, ha => by
    simp only [planChildren, List.mem_append] at ha
    rcases ha with h | h
    · exact planNode_noskip ctx (p ++ [nm]) nm c a h
    · exact planChildren_noskip ctx p rest a h

end

/-- Disjointness of two planned actions: distinct sources, and the source of a
whole-directory move is never an ancestor-or-self of the other's source. -/
def planDisjoint (a b : Action) : Prop :=
  a.src ≠ b.src ∧ ∀ d e, a = Action.moveDir d e → ¬ d <+: b.src

mutual

theorem planNode_pairwise (ctx : PlanCtx) (p : Path) (nm : Str) :
    ∀ (n : Node), wfNode n = true →
      List.Pairwise planDisjoint (planNode ctx p nm n)
  | Node.link b, _ => by
    simp only [planNode]
    split
    · exact List.Pairwise.nil
    · split
      · simp [List.pairwise_singleton]
      · exact List.Pairwise.nil
  | Node.file sz, _ => by
    simp only [planNode]
    split
    · exact List.Pairwise.nil
    · split
      · simp [List.pairwise_singleton]
      · split
        · simp [List.pairwise_singleton]
        · simp [List.pairwise_singleton]
  | Node.dir cs, hwf => by
    simp only [wfNode, Bool.and_eq_true, decide_eq_true_eq] at hwf
    simp only [planNode]
    split
    · exact List.Pairwise.nil
    · split
      · exact List.Pairwise.nil
      · split
        · simp [List.pairwise_singleton]
        · exact planChildren_pairwise ctx p cs hwf.1 hwf.2

theorem planChildren_pairwise (ctx : PlanCtx) (p : Path) :
    ∀ (cs : List (Str × Node)), (cs.map Prod.fst).Nodup → wfEnts cs = true →
      List.Pairwise planDisjoint (planChildren ctx p cs)
  | [], _, _ => List.Pairwise.nil
  | (nm, c) :: rest, hnd, hwf => by
    simp only [wfEnts, Bool.and_eq_true] at hwf
    simp only [List.map_cons, List.nodup_cons] at hnd
    simp only [planChildren]
    rw [List.pairwise_append]
    refine ⟨planNode_pairwise ctx (p ++ [nm]) nm c hwf.1,
      planChildren_pairwise ctx p rest hnd.2 hwf.2, ?_⟩
    intro a ha b hb
    obtain ⟨nm', hmem', hpre'⟩ := planChildren_src ctx p rest b hb
    have hpa := planNode_src ctx (p ++ [nm]) nm c a ha
    have hne : nm ≠ nm' := fun he => hnd.1 (he ▸ hmem')
    constructor
    · intro heq
      exact hne (snoc_prefix_inj (heq ▸ hpa) hpre')
    · intro d e had hdb
      rw [had] at hpa
      simp only [Action.src] at hpa
      exact hne (snoc_prefix_inj (hpa.trans hdb) hpre')

end

/-- C4: over any well-formed tree (distinct sibling names), every action the
planner emits has a source that is neither equal to nor a descendant of any
skip-root; the source of an already-planned whole-directory move is never an
ancestor (or equal) of any other planned action's source; and no filesystem
entry is planned twice (all sources are distinct). -/
theorem c4_planner_invariant (ctx : PlanCtx) (rootPath : Path) (root : Node)
    (hwf : wfNode root = true) :
    (∀ a ∈ planTree ctx rootPath root, underAny ctx.skips a.src = false)
    ∧ ((planTree ctx rootPath root).map Action.src).Nodup
    ∧ List.Pairwise
        (fun a b => ∀ d e, a = Action.moveDir d e → ¬ d <+: b.src)
        (planTree ctx rootPath root) := by
  have hpw := planNode_pairwise ctx rootPath (lastName rootPath) root hwf
  refine ⟨fun a ha => planNode_noskip ctx rootPath (lastName rootPath) root a ha,
    ?_, ?_⟩
  · unfold List.Nodup
    rw [List.pairwise_map]
    exact hpw.imp (fun h => h.1)
  · exact hpw.imp (fun h => h.2)

/-! ### C5: dedupe grouping — key injectivity -/

theorem joinBar_count : ∀ P : List Str,
    (joinBar P).count '|' = (P.map (fun q => q.count '|')).sum + (P.length - 1)
  | [] => by simp [joinBar]
  | [p] => by simp [joinBar]
  | p :: q :: rest => by
    have ih := joinBar_count (q :: rest)
    show (p ++ '|' :: joinBar (q :: rest)).count '|' = _
    rw [List.count_append, List.count_cons]
    simp only [List.map_cons, List.sum_cons, List.length_cons] at ih ⊢
    rw [ih]
    simp
    omega

theorem pipe_split : ∀ (p q xs ys : Str), p.count '|' = q.count '|' →
    p ++ '|' :: xs = q ++ '|' :: ys → p = q ∧ xs = ys
  | [], [], xs, ys, _, h => by
    simp only [List.nil_append, List.cons.injEq] at h
    exact ⟨rfl, h.2⟩
  | [], c :: q', xs, ys, hc, h => by
    simp only [List.nil_append, List.cons_append, List.cons.injEq] at h
    obtain ⟨hc1, _⟩ := h
    subst hc1
    rw [List.count_nil, List.count_cons] at hc
    simp at hc
  | c :: p', [], xs, ys, hc, h => by
    simp only [List.nil_append, List.cons_append, List.cons.injEq] at h
    obtain ⟨hc1, _⟩ := h
    subst hc1
    rw [List.count_nil, List.count_cons] at hc
    simp at hc
  | a :: p', b :: q', xs, ys, hc, h => by
    simp only [List.cons_append, List.cons.injEq] at h
    obtain ⟨hab, h2⟩ := h
    subst hab
    rw [List.count_cons, List.count_cons] at hc
    have hc' : p'.count '|' = q'.count '|' := by omega
    obtain ⟨h3, h4⟩ := pipe_split p' q' xs ys hc' h2
    exact ⟨by rw [h3], h4⟩

theorem joinBar_inj : ∀ (P Q : List Str),
    List.Forall₂ (fun p q => p.count '|' = q.count '|') P Q →
    joinBar P = joinBar Q → P = Q
  | [], [], _, _ => rfl
  | [], _ :: _, hf, _ => by cases hf
  | _ :: _, [], hf, _ => by cases hf
  | [p], [q], _, h => by
    rw [show joinBar [p] = p from rfl, show joinBar [q] = q from rfl] at h
    rw [h]
  | [p], q :: q2 :: Q', hf, h => by
    cases hf with
    | cons _ htail => cases htail
  | p :: p2 :: P', [q], hf, h => by
    cases hf with
    | cons _ htail => cases htail
  | p :: p2 :: P', q :: q2 :: Q', hf, h => by
    cases hf with
    | cons hpq htail =>
      rw [show joinBar (p :: p2 :: P') = p ++ '|' :: joinBar (p2 :: P') from rfl,
        show joinBar (q :: q2 :: Q') = q ++ '|' :: joinBar (q2 :: Q') from rfl] at h
      obtain ⟨h1, h2⟩ := pipe_split p q _ _ hpq h
      rw [h1, joinBar_inj (p2 :: P') (q2 :: Q') htail h2]

theorem subKey_count_name (f : FileInfo) :
    (subKey .name f).count '|' = f.fname.count '|' := by
  simp [subKey, List.count_cons]

theorem hexEncode_ne_nohash : ∀ a : List Nat, hexEncode a ≠ "NOHASH".data
  | [] => by decide
  | b :: rest => by
    intro h
    rw [show ("NOHASH".data) = 'N' :: "OHASH".data from rfl] at h
    simp only [hexEncode, List.cons.injEq] at h
    exact hexChar_ne_N _ h.1

theorem subKey_count_other (m : DedupeMethod) (hm : m ≠ .name) (f : FileInfo) :
    (subKey m f).count '|' = 0 := by
  cases m with
  | name => exact absurd rfl hm
  | size =>
    simp only [subKey, List.count_cons]
    rw [List.count_eq_zero.mpr (natChars_pipe f.size)]
    simp
  | hash =>
    cases hh : f.hash with
    | none => simp [subKey, hh, List.count_cons]
    | some a =>
      simp only [subKey, hh, List.count_cons]
      rw [List.count_eq_zero.mpr (hexEncode_pipe a)]
      simp

theorem sum_subKey_count (f : FileInfo) : ∀ ms : List DedupeMethod,
    ((ms.map (fun m => subKey m f)).map (fun q => q.count '|')).sum
      = ms.count .name * f.fname.count '|'
  | [] => by simp
  | m :: ms => by
    have ih := sum_subKey_count f ms
    simp only [List.map_cons, List.sum_cons, List.count_cons, ih]
    by_cases hm : m = DedupeMethod.name
    · subst hm
      rw [subKey_count_name]
      simp only [beq_self_eq_true, if_true]
      ring
    · rw [subKey_count_other m hm]
      have hbm : (m == DedupeMethod.name) = false := by
        cases m with
        | name => exact absurd rfl hm
        | size => rfl
        | hash => rfl
      rw [hbm]
      simp

theorem forall₂_map_of_mem {α β : Type} {R : β → β → Prop} {F G : α → β} :
    ∀ l : List α, (∀ x ∈ l, R (F x) (G x)) →
      List.Forall₂ R (l.map F) (l.map G)
  | [], _ => List.Forall₂.nil
  | x :: xs, h =>
    List.Forall₂.cons (h x (by simp))
      (forall₂_map_of_mem xs (fun y hy => h y (by simp [hy])))

theorem eq_of_map_eq {α β : Type} {F G : α → β} : ∀ l : List α,
    l.map F = l.map G → ∀ x ∈ l, F x = G x
  | [], _, x, hx => absurd hx (List.not_mem_nil x)
  | y :: ys, h, x, hx => by
    simp only [List.map_cons, List.cons.injEq] at h
    rcases List.mem_cons.mp hx with rfl | hx'
    · exact h.1
    · exact eq_of_map_eq ys h.2 x hx'

/-- Key equality forces sub-key equality for every enabled method: the `"|"`
join is injective because the size/hash sub-keys are pipe-free and the total
pipe count pins the name sub-keys' pipe counts. -/
theorem dkey_eq_subKeys (ms : List DedupeMethod) (f g : FileInfo)
    (h : dkey ms f = dkey ms g) : ∀ m ∈ ms, subKey m f = subKey m g := by
  have hc : (dkey ms f).count '|' = (dkey ms g).count '|' := by rw [h]
  rw [dkey, dkey, joinBar_count, joinBar_count, sum_subKey_count,
    sum_subKey_count] at hc
  simp only [List.length_map] at hc
  have hsum : ms.count DedupeMethod.name * f.fname.count '|'
      = ms.count DedupeMethod.name * g.fname.count '|' := by omega
  have hper : ∀ m ∈ ms, (subKey m f).count '|' = (subKey m g).count '|' := by
    intro m hm
    by_cases hname : m = DedupeMethod.name
    · subst hname
      rw [subKey_count_name, subKey_count_name]
      have hpos : 0 < ms.count DedupeMethod.name := List.count_pos_iff.mpr hm
      exact Nat.eq_of_mul_eq_mul_left hpos hsum
    · rw [subKey_count_other m hname, subKey_count_other m hname]
  have hforall := forall₂_map_of_mem (R := fun p q => p.count '|' = q.count '|')
    (F := fun m => subKey m f) (G := fun m => subKey m g) ms hper
  have hmap := joinBar_inj _ _ hforall h
  exact eq_of_map_eq ms hmap

/-- Agreement of two files on one dedupe method. -/
def agrees (m : DedupeMethod) (f g : FileInfo) : Prop :=
  match m with
  | .name => f.fname = g.fname
  | .size => f.size = g.size
  | .hash => f.hash = g.hash

/-- The 32 bytes of a BLAKE3 digest are bytes. -/
def hashOk (f : FileInfo) : Prop := ∀ h, f.hash = some h → ∀ b ∈ h, b < 256

theorem subKey_eq_iff_agrees (m : DedupeMethod) (f g : FileInfo)
    (hf : hashOk f) (hg : hashOk g) :
    subKey m f = subKey m g ↔ agrees m f g := by
  cases m with
  | name => simp [subKey, agrees]
  | size =>
    simp only [subKey, agrees, List.cons.injEq, true_and]
    exact ⟨fun h => natChars_injective h, fun h => by rw [h]⟩
  | hash =>
    cases hfh : f.hash with
    | none =>
      cases hgh : g.hash with
      | none => simp [subKey, agrees, hfh, hgh]
      | some b =>
        simp only [subKey, agrees, hfh, hgh, List.cons.injEq, true_and]
        constructor
        · intro hb
          exact absurd hb.symm (hexEncode_ne_nohash b)
        · intro hb
          exact absurd hb (by simp)
    | some a =>
      cases hgh : g.hash with
      | none =>
        simp only [subKey, agrees, hfh, hgh, List.cons.injEq, true_and]
        constructor
        · intro hb
          exact absurd hb (hexEncode_ne_nohash a)
        · intro hb
          exact absurd hb (by simp)
      | some b =>
        simp only [subKey, agrees, hfh, hgh, List.cons.injEq, true_and,
          Option.some.injEq]
        constructor
        · intro hb
          exact hexEncode_injective a b (hf a hfh) (hg b hgh) hb
        · intro hb
          rw [hb]

/-! ### C5: buildGroups characterization -/

theorem insertGroup_cons (k : Str) (f : FileInfo) (k0 : Str)
    (g0 : List FileInfo) (acc' : List (Str × List FileInfo)) :
    insertGroup k f ((k0, g0) :: acc')
      = if k0 = k then (k0, g0 ++ [f]) :: acc'
        else (k0, g0) :: insertGroup k f acc' := rfl

theorem insertGroup_keys_mem (k : Str) (f : FileInfo) (k' : Str) :
    ∀ acc : List (Str × List FileInfo),
    (k' ∈ (insertGroup k f acc).map Prod.fst ↔ k' ∈ acc.map Prod.fst ∨ k' = k)
  | [] => by simp [insertGroup]
  | (k0, g0) :: acc' => by
    by_cases hk : k0 = k
    · rw [insertGroup_cons, if_pos hk]
      subst hk
      simp only [List.map_cons, List.mem_cons]
      tauto
    · rw [insertGroup_cons, if_neg hk]
      simp only [List.map_cons, List.mem_cons, insertGroup_keys_mem k f k' acc']
      tauto

theorem insertGroup_keys_nodup (k : Str) (f : FileInfo) :
    ∀ acc : List (Str × List FileInfo),
    (acc.map Prod.fst).Nodup → ((insertGroup k f acc).map Prod.fst).Nodup
  | [], _ => by simp [insertGroup]
  | (k0, g0) :: acc', hnd => by
    simp only [List.map_cons, List.nodup_cons] at hnd
    by_cases hk : k0 = k
    · rw [insertGroup_cons, if_pos hk]
      simp only [List.map_cons, List.nodup_cons]
      exact hnd
    · rw [insertGroup_cons, if_neg hk]
      simp only [List.map_cons, List.nodup_cons]
      refine ⟨?_, insertGroup_keys_nodup k f acc' hnd.2⟩
      rw [insertGroup_keys_mem]
      rintro (h | rfl)
      · exact hnd.1 h
      · exact hk rfl

theorem insertGroup_content (ms : List DedupeMethod) (f : FileInfo)
    (done : List FileInfo) :
    ∀ acc : List (Str × List FileInfo),
    (acc.map Prod.fst).Nodup →
    (∀ k g, (k, g) ∈ acc → g = done.filter (fun x => decide (dkey ms x = k))) →
    (∀ x ∈ done, dkey ms x = dkey ms f → dkey ms f ∈ acc.map Prod.fst) →
    ∀ k g, (k, g) ∈ insertGroup (dkey ms f) f acc →
      g = (done ++ [f]).filter (fun x => decide (dkey ms x = k))
  | [], _, _, hcov, k, g, hmem => by
    simp only [insertGroup, List.mem_singleton, Prod.mk.injEq] at hmem
    rw [hmem.2, List.filter_append]
    rw [List.filter_eq_nil_iff.mpr (fun x hx => by
      simp only [decide_eq_true_eq]
      exact fun hkey =>
        absurd (hcov x hx (hkey.trans hmem.1)) (List.not_mem_nil _))]
    simp [← hmem.1]
  | (k0, g0) :: acc', hnd, hgs, hcov, k, g, hmem => by
    simp only [List.map_cons, List.nodup_cons] at hnd
    by_cases hk : k0 = dkey ms f
    · rw [insertGroup_cons, if_pos hk] at hmem
      rcases List.mem_cons.mp hmem with heq | htail
      · rw [Prod.mk.injEq] at heq
        rw [heq.2, heq.1, List.filter_append,
          ← hgs k0 g0 (List.mem_cons_self _ _)]
        have hfil : List.filter (fun x => decide (dkey ms x = k0)) [f] = [f] := by
          simp [hk]
        rw [hfil]
      · have hthis := hgs k g (List.mem_cons_of_mem _ htail)
        have hkmem : k ∈ acc'.map Prod.fst :=
          List.mem_map.mpr ⟨(k, g), htail, rfl⟩
        have hkne : ¬ dkey ms f = k := fun he => hnd.1 (hk.symm ▸ he ▸ hkmem)
        rw [hthis, List.filter_append]
        have hfil : List.filter (fun x => decide (dkey ms x = k)) [f] = [] := by
          simp [hkne]
        rw [hfil, List.append_nil]
    · rw [insertGroup_cons, if_neg hk] at hmem
      rcases List.mem_cons.mp hmem with heq | htail
      · rw [Prod.mk.injEq] at heq
        have hkne : ¬ dkey ms f = k0 := fun he => hk he.symm
        rw [heq.2, heq.1, List.filter_append,
          ← hgs k0 g0 (List.mem_cons_self _ _)]
        have hfil : List.filter (fun x => decide (dkey ms x = k0)) [f] = [] := by
          simp [hkne]
        rw [hfil, List.append_nil]
      · refine insertGroup_content ms f done acc' hnd.2
          (fun k1 g1 h1 => hgs k1 g1 (List.mem_cons_of_mem _ h1))
          (fun x hx hkey => ?_) k g htail
        have h2 := hcov x hx hkey
        simp only [List.map_cons, List.mem_cons] at h2
        rcases h2 with h2 | h2
        · exact absurd h2.symm hk
        · exact h2

theorem buildGroupsGo_inv (ms : List DedupeMethod) :
    ∀ (rest done : List FileInfo) (acc : List (Str × List FileInfo)),
    (acc.map Prod.fst).Nodup →
    (∀ k g, (k, g) ∈ acc → g = done.filter (fun x => decide (dkey ms x = k))) →
    (∀ x ∈ done, dkey ms x ∈ acc.map Prod.fst) →
    (((buildGroupsGo ms rest acc).map Prod.fst).Nodup
      ∧ (∀ k g, (k, g) ∈ buildGroupsGo ms rest acc →
          g = (done ++ rest).filter (fun x => decide (dkey ms x = k)))
      ∧ (∀ x ∈ done ++ rest,
          dkey ms x ∈ (buildGroupsGo ms rest acc).map Prod.fst))
  | [], done, acc, h1, h2, h3 => by
    simp only [buildGroupsGo, List.append_nil]
    exact ⟨h1, h2, h3⟩
  | f :: rest, done, acc, h1, h2, h3 => by
    have h1' := insertGroup_keys_nodup (dkey ms f) f acc h1
    have h2' := insertGroup_content ms f done acc h1 h2
      (fun x hx he => he ▸ h3 x hx)
    have h3' : ∀ x ∈ done ++ [f],
        dkey ms x ∈ (insertGroup (dkey ms f) f acc).map Prod.fst := by
      intro x hx
      rw [insertGroup_keys_mem]
      rcases List.mem_append.mp hx with hx | hx
      · exact Or.inl (h3 x hx)
      · rw [List.mem_singleton] at hx
        subst hx
        exact Or.inr rfl
    have hrec := buildGroupsGo_inv ms rest (done ++ [f])
      (insertGroup (dkey ms f) f acc) h1' h2' h3'
    simpa [buildGroupsGo, List.append_assoc] using hrec

/-- The groups built by `DedupePlan::apply`: distinct keys, each group is the
scan-order sublist of files with that exact key, and every scanned file has a
group. -/
theorem buildGroups_char (ms : List DedupeMethod) (fs : List FileInfo) :
    ((buildGroups ms fs).map Prod.fst).Nodup
    ∧ (∀ k g, (k, g) ∈ buildGroups ms fs →
        g = fs.filter (fun x => decide (dkey ms x = k)))
    ∧ (∀ x ∈ fs, dkey ms x ∈ (buildGroups ms fs).map Prod.fst) := by
  have h := buildGroupsGo_inv ms fs [] []
    (by simp) (by simp) (by simp)
  simpa [buildGroups] using h

theorem filter_head?_eq_find? {α : Type} (p : α → Bool) : ∀ l : List α,
    (l.filter p).head? = l.find? p
  | [] => rfl
  | x :: xs => by
    cases hx : p x
    · rw [List.filter_cons, List.find?_cons]
      simp [hx, filter_head?_eq_find? p xs]
    · rw [List.filter_cons, List.find?_cons]
      simp [hx]

theorem applyDup_log {σ : Type} (mode : DedupeMode) (e : Engine) (ops : FSOps σ)
    (keep : FileInfo) (s : σ) (d : FileInfo) :
    (applyDup mode e ops keep s d).2 = [LogLine.del d.path (dupReason mode)] := by
  cases mode <;> rfl

theorem applyDups_log {σ : Type} (mode : DedupeMode) (e : Engine)
    (ops : FSOps σ) (keep : FileInfo) : ∀ (ds : List FileInfo) (s : σ),
    (applyDups mode e ops keep s ds).2
      = ds.map (fun d => LogLine.del d.path (dupReason mode))
  | [], _ => rfl
  | d :: ds, s => by
    simp only [applyDups, applyDup_log, applyDups_log mode e ops keep ds,
      List.map_cons, List.singleton_append]

theorem applyGroup_log {σ : Type} (mode : DedupeMode) (e : Engine)
    (ops : FSOps σ) (s : σ) (g : List FileInfo) (hlen : 1 < g.length) :
    (applyGroup mode e ops s g).2
      = g.tail.map (fun d => LogLine.del d.path (dupReason mode)) := by
  cases g with
  | nil => simp at hlen
  | cons keep rest =>
    simp only [applyGroup]
    rw [if_neg (by
      simp only [List.length_cons] at hlen ⊢
      omega)]
    simp [applyDups_log]

theorem map_congr_mem {α β : Type} {F G : α → β} : ∀ l : List α,
    (∀ x ∈ l, F x = G x) → l.map F = l.map G
  | [], _ => rfl
  | x :: xs, h => by
    simp only [List.map_cons]
    rw [h x (by simp), map_congr_mem xs (fun y hy => h y (by simp [hy]))]

/-- C5: two scanned files land in the same duplicate group iff they agree on
every enabled method simultaneously (AND semantics of the ordered sub-key
concatenation); each group lists its files in scan order, so its canonical
head is the first scanned file with that key, and resolving a group of size
> 1 deletes exactly the non-head members, in order. -/
theorem c5_dedupe_grouping (ms : List DedupeMethod) (fs : List FileInfo)
    (f g : FileInfo) (hf : f ∈ fs) (hg : g ∈ fs)
    (hok : ∀ x ∈ fs, hashOk x) :
    ((∃ k grp, (k, grp) ∈ buildGroups ms fs ∧ f ∈ grp ∧ g ∈ grp)
      ↔ ∀ m ∈ ms, agrees m f g)
    ∧ (∀ k grp, (k, grp) ∈ buildGroups ms fs →
        grp = fs.filter (fun x => decide (dkey ms x = k))
        ∧ grp.head? = fs.find? (fun x => decide (dkey ms x = k))
        ∧ ∀ (σ : Type) (mode : DedupeMode) (e : Engine) (ops : FSOps σ) (s : σ),
            1 < grp.length →
            (applyGroup mode e ops s grp).2
              = grp.tail.map (fun d => LogLine.del d.path (dupReason mode))) := by
  obtain ⟨hnd, hcontent, hcov⟩ := buildGroups_char ms fs
  constructor
  · constructor
    · rintro ⟨k, grp, hmem, hfg, hgg⟩
      have hgrp := hcontent k grp hmem
      rw [hgrp, List.mem_filter] at hfg hgg
      have h1 := hfg.2
      have h2 := hgg.2
      simp only [decide_eq_true_eq] at h1 h2
      have hkey : dkey ms f = dkey ms g := by rw [h1, h2]
      intro m hm
      exact (subKey_eq_iff_agrees m f g (hok f hf) (hok g hg)).mp
        (dkey_eq_subKeys ms f g hkey m hm)
    · intro hag
      have hkey : dkey ms f = dkey ms g := by
        unfold dkey
        exact congrArg joinBar (map_congr_mem ms (fun m hm =>
          (subKey_eq_iff_agrees m f g (hok f hf) (hok g hg)).mpr (hag m hm)))
      obtain ⟨a, hamem, hfst⟩ := List.mem_map.mp (hcov f hf)
      obtain ⟨k1, grp⟩ := a
      refine ⟨k1, grp, hamem, ?_, ?_⟩
      · rw [hcontent k1 grp hamem, List.mem_filter]
        refine ⟨hf, ?_⟩
        simp only [decide_eq_true_eq]
        exact hfst.symm
      · rw [hcontent k1 grp hamem, List.mem_filter]
        refine ⟨hg, ?_⟩
        simp only [decide_eq_true_eq]
        rw [← hkey]
        exact hfst.symm
  · intro k grp hmem
    refine ⟨hcontent k grp hmem, ?_, ?_⟩
    · rw [hcontent k grp hmem, filter_head?_eq_find?]
    · intro σ mode e ops s hlen
      exact applyGroup_log mode e ops s grp hlen

/-- A context whose classifier detects `/root/proj` as a project directory. -/
def exCtx4 : PlanCtx :=
  ⟨exSkips,
   ["Media".data, "Music".data, "Documents".data, "Archives".data,
    "Projects".data, "GitRepos".data, "Backups".data, "Others".data],
   none, true, ["root".data], fun _ => false,
   fun p _ => if p = ["root".data, "proj".data] then some Category.projects
              else none,
   fun _ _ => Category.others⟩

/-- `/root` containing a project directory (with a file inside) and a file. -/
def exTree4 : Node :=
  Node.dir [("proj".data, Node.dir [("f".data, Node.file 3)]),
    ("g".data, Node.file 5)]

theorem c4_planner_invariant_witness :
    wfNode exTree4 = true
    ∧ ((∀ a ∈ planTree exCtx4 ["root".data] exTree4,
          underAny exCtx4.skips a.src = false)
      ∧ ((planTree exCtx4 ["root".data] exTree4).map Action.src).Nodup
      ∧ List.Pairwise
          (fun a b => ∀ d e, a = Action.moveDir d e → ¬ d <+: b.src)
          (planTree exCtx4 ["root".data] exTree4)) :=
  ⟨by decide, c4_planner_invariant exCtx4 ["root".data] exTree4 (by decide)⟩

/-- Two scan records with the same name and size but different paths. -/
def exF1 : FileInfo := ⟨["r".data, "x".data], "a".data, 1, none⟩

/-- The second record of the pair. -/
def exF2 : FileInfo := ⟨["r".data, "y".data], "a".data, 1, none⟩

theorem c5_dedupe_grouping_witness :
    exF1 ∈ [exF1, exF2] ∧ exF2 ∈ [exF1, exF2]
    ∧ (∀ x ∈ [exF1, exF2], hashOk x)
    ∧ (((∃ k grp,
          (k, grp) ∈ buildGroups [DedupeMethod.name, DedupeMethod.size]
            [exF1, exF2] ∧ exF1 ∈ grp ∧ exF2 ∈ grp)
        ↔ ∀ m ∈ [DedupeMethod.name, DedupeMethod.size], agrees m exF1 exF2)
      ∧ (∀ k grp,
          (k, grp) ∈ buildGroups [DedupeMethod.name, DedupeMethod.size]
            [exF1, exF2] →
          grp = [exF1, exF2].filter
              (fun x => decide (dkey [DedupeMethod.name, DedupeMethod.size] x = k))
          ∧ grp.head? = [exF1, exF2].find?
              (fun x => decide (dkey [DedupeMethod.name, DedupeMethod.size] x = k))
          ∧ ∀ (σ : Type) (mode : DedupeMode) (e : Engine) (ops : FSOps σ) (s : σ),
              1 < grp.length →
              (applyGroup mode e ops s grp).2
                = grp.tail.map (fun d => LogLine.del d.path (dupReason mode)))) := by
  have hok : ∀ x ∈ [exF1, exF2], hashOk x := by
    intro x hx h hcontra
    simp only [List.mem_cons, List.not_mem_nil, or_false] at hx
    rcases hx with rfl | rfl
    · exact absurd hcontra (by simp [exF1])
    · exact absurd hcontra (by simp [exF2])
  exact ⟨by simp, by simp, hok,
    c5_dedupe_grouping [DedupeMethod.name, DedupeMethod.size] [exF1, exF2]
      exF1 exF2 (by simp) (by simp) hok⟩

end Organizer
